import Mathlib

/-!
Verification of the slideshow MILP builder (`slideshow.py`).

The source program reads a photo dataset, generates candidate slides
(one per landscape photo, one per unordered pair of portrait photos),
builds a mixed binary/integer model (selection variables `z`, arc
variables `x` over a START/END-augmented node set, MTZ position
variables `pos`), and extracts the slide order by walking the value-1
arcs from START.

Below, every definition is a direct shallow embedding of the
corresponding Python function.  Machine integers do not overflow in the
source (Python), so plain `ℕ`/`ℤ` are used.
-/

namespace Slideshow

/-- A photo as stored by `read_file`: the raw orientation token and the
tag set (`set(ligne[2:])`). -/
structure Photo where
  orientation : String
  tags : Finset String
deriving DecidableEq

/-- A candidate slide, mirroring the dictionaries built by
`build_candidate_slides`: the `'type'` field (`"H"` or `"V"`), the
`'photos'` tuple and the `'tags'` set. -/
structure Candidate where
  type : String
  photos : List ℕ
  tags : Finset String
deriving DecidableEq

/-- Default candidate used for out-of-range list access. -/
def cdef : Candidate := { type := "", photos := [], tags := ∅ }

/-- `score_transition(tags1, tags2)` from the source:
`min(len(tags1 & tags2), len(tags1 - tags2), len(tags2 - tags1))`. -/
def score_transition (tags1 tags2 : Finset String) : ℕ :=
  let commun := (tags1 ∩ tags2).card
  let diff1 := (tags1 \ tags2).card
  let diff2 := (tags2 \ tags1).card
  min commun (min diff1 diff2)

/-- `itertools.combinations(l, 2)` in list order: all pairs `(l[a], l[b])`
with `a < b`, first component outermost. -/
def combinations2 {α : Type*} : List α → List (α × α)
  | [] => []
  | a :: rest => (rest.map fun b => (a, b)) ++ combinations2 rest

/-- The dictionary appended for a horizontal photo `i`:
`{'type': 'H', 'photos': (i,), 'tags': images[i]['tags']}`. -/
def singleCand (images : ℕ → Photo) (i : ℕ) : Candidate :=
  { type := "H", photos := [i], tags := (images i).tags }

/-- The dictionary appended for a vertical pair `(i, j)`:
`{'type': 'V', 'photos': (i, j), 'tags': union of the tag sets}`. -/
def pairCand (images : ℕ → Photo) (q : ℕ × ℕ) : Candidate :=
  { type := "V", photos := [q.1, q.2],
    tags := (images q.1).tags ∪ (images q.2).tags }

/-- `build_candidate_slides(images, horizontales, verticales)`:
one `"H"` candidate `(i,)` per element of `horizontales`, then one `"V"`
candidate `(i, j)` with the union of the two tag sets per pair from
`itertools.combinations(verticales, 2)`. -/
def build_candidate_slides (images : ℕ → Photo)
    (horizontales verticales : List ℕ) : List Candidate :=
  horizontales.map (singleCand images) ++
    (combinations2 verticales).map (pairCand images)

/-- The per-line classification loop of `read_file`: photo `i` gets the
line's first token as orientation and `set(ligne[2:])` as tags; index
`i` is appended to `horizontales` when the orientation token is `"H"`
and to `verticales` otherwise.  File access itself is outside the
embedding; the input is the list of token lists. -/
def classify_photos : ℕ → List (List String) →
    List (ℕ × Photo) × List ℕ × List ℕ
  | _, [] => ([], [], [])
  | i, line :: rest =>
    let p : Photo := { orientation := line.headD "",
                       tags := (line.drop 2).toFinset }
    let r := classify_photos (i+1) rest
    ((i, p) :: r.1,
     if line.headD "" = "H" then i :: r.2.1 else r.2.1,
     if line.headD "" = "H" then r.2.2 else i :: r.2.2)

/-- `read_file` after parsing: photo count plus the classification. -/
def read_file (lines : List (List String)) :
    ℕ × (List (ℕ × Photo) × List ℕ × List ℕ) :=
  (lines.length, classify_photos 0 lines)

/-- The constraints of `build_model` on the selection variables `z`:
binary bounds, `z[s]` fixed to `1` for `"H"` candidates (`lb=1, ub=1`),
and for every vertical photo `p` the sum of `z[s]` over `"V"` candidates
whose photo tuple contains `p` is at most `1`. -/
def selection_ok (cs : List Candidate) (verticales : List ℕ)
    (z : ℕ → ℕ) : Prop :=
  (∀ s < cs.length, z s ≤ 1) ∧
  (∀ s < cs.length, (cs.getD s cdef).type = "H" → z s = 1) ∧
  (∀ p ∈ verticales,
    ((Finset.range cs.length).filter
      (fun s => (cs.getD s cdef).type = "V" ∧
        p ∈ (cs.getD s cdef).photos)).sum z ≤ 1)

/-- The routing constraints of `build_model` over the `n + 2` nodes
(`0` = START, `1..n` = real nodes, `n+1` = END): binary arc variables,
`pos` bounds (`lb=1, ub=n`), `sortie_start`, `entree_end`, the per-node
in/out degree constraints tied to `z`, `prec_start`, `succ_end`, and the
MTZ inequalities. -/
def routing_ok (n : ℕ) (z : ℕ → ℕ) (x : ℕ → ℕ → ℕ) (pos : ℕ → ℤ) : Prop :=
  (∀ i ∈ Finset.range (n+2), ∀ j ∈ Finset.range (n+2), i ≠ j → x i j ≤ 1) ∧
  (∀ i ∈ Finset.Icc 1 n, 1 ≤ pos i ∧ pos i ≤ (n : ℤ)) ∧
  ((Finset.Icc 1 n).sum (fun j => x 0 j) = 1) ∧
  ((Finset.Icc 1 n).sum (fun i => x i (n+1)) = 1) ∧
  (∀ i ∈ Finset.Icc 1 n,
    ((Finset.range (n+2)).filter (fun j => j ≠ i)).sum (fun j => x j i)
      = z (i-1)) ∧
  (∀ i ∈ Finset.Icc 1 n,
    ((Finset.range (n+2)).filter (fun j => j ≠ i)).sum (fun j => x i j)
      = z (i-1)) ∧
  (((Finset.range (n+2)).filter (fun i => i ≠ 0)).sum (fun i => x i 0) = 0) ∧
  (((Finset.range (n+2)).filter (fun j => j ≠ n+1)).sum
      (fun j => x (n+1) j) = 0) ∧
  (∀ i ∈ Finset.Icc 1 n, ∀ j ∈ Finset.Icc 1 n, i ≠ j →
    pos i - pos j + (n : ℤ) * (x i j : ℤ) ≤ (n : ℤ) - 1)

/-- All constraints added by `build_model` (the number of real nodes is
the number of candidates). -/
def model_feasible (cs : List Candidate) (verticales : List ℕ)
    (z : ℕ → ℕ) (x : ℕ → ℕ → ℕ) (pos : ℕ → ℤ) : Prop :=
  selection_ok cs verticales z ∧ routing_ok cs.length z x pos

/-- The precomputed transition cost `cost[s, t]` of `build_model`. -/
def cost (cs : List Candidate) (s t : ℕ) : ℕ :=
  score_transition (cs.getD s cdef).tags (cs.getD t cdef).tags

/-- The objective set by `build_model`:
`Σ_{i,j ∈ 1..n, i ≠ j} cost[i-1, j-1] · x[i, j]` (maximized). -/
def objective (cs : List Candidate) (x : ℕ → ℕ → ℕ) : ℕ :=
  (Finset.Icc 1 cs.length).sum fun i =>
    ((Finset.Icc 1 cs.length).filter (fun j => j ≠ i)).sum fun j =>
      cost cs (i-1) (j-1) * x i j

/-- The real nodes selected by `z` (node `i` carries candidate `i-1`). -/
def selectedNodes (n : ℕ) (z : ℕ → ℕ) : Finset ℕ :=
  (Finset.Icc 1 n).filter fun i => z (i-1) = 1

/-- An arc of the extracted path: a value-1 arc between two distinct
declared nodes other than the direct START→END arc variable (which no
constraint of `build_model` mentions). -/
def pathArc (n : ℕ) (x : ℕ → ℕ → ℕ) (u v : ℕ) : Prop :=
  u ≤ n+1 ∧ v ≤ n+1 ∧ u ≠ v ∧ x u v = 1 ∧ (u, v) ≠ (0, n+1)

/-- Consecutive pairs of a list (the transitions of an order). -/
def adjPairs {α : Type*} : List α → List (α × α)
  | [] => []
  | [_] => []
  | a :: b :: rest => (a, b) :: adjPairs (b :: rest)

/-- The inner `for j in range(n+2)` scan of `get_solution`: first `j`
in the given list with `current != j and x[current, j] == 1`. -/
def scanNext (x : ℕ → ℕ → ℕ) (current : ℕ) : List ℕ → Option ℕ
  | [] => none
  | j :: rest =>
    if current ≠ j ∧ x current j = 1 then some j else scanNext x current rest

/-- One search step of `get_solution`'s loop body. -/
def findNext (x : ℕ → ℕ → ℕ) (n current : ℕ) : Option ℕ :=
  scanNext x current (List.range (n+2))

/-- The `while current != n+1` loop of `get_solution`, returning the
list of appended nodes.  The Python loop is unbounded; the embedding
carries an explicit fuel parameter, and the termination claim is proved
as a separate theorem (the result is fuel-independent once the fuel
reaches `n+2`, provided the walk revisits no node). -/
def walk (x : ℕ → ℕ → ℕ) (n : ℕ) : ℕ → ℕ → List ℕ
  | 0, _ => []
  | fuel+1, current =>
    if current = n + 1 then []
    else match findNext x n current with
      | some j => j :: walk x n fuel j
      | none => []

/-- The first strip of `get_solution`: drop a leading node `0`
(`if order and order[0] == 0`). -/
def strip_start (order : List ℕ) : List ℕ :=
  if order.head? = some 0 then order.tail else order

/-- The second strip of `get_solution`: drop a trailing node `n+1`
(`if order and order[-1] == n+1`). -/
def strip_end (n : ℕ) (order : List ℕ) : List ℕ :=
  if order.getLast? = some (n+1) then order.dropLast else order

/-- `get_solution(x, n)`: run the walk from START, strip a leading `0`
and a trailing `n+1` if present, and shift node indices down to
candidate indices. -/
def get_solution (x : ℕ → ℕ → ℕ) (n fuel : ℕ) : List ℕ :=
  (strip_end n (strip_start (walk x n fuel 0))).map (fun v => v - 1)

/-- The re-scoring loop of `__main__`: sum of `score_transition` over
consecutive entries of the extracted candidate order. -/
def total_score (cs : List Candidate) (ord : List ℕ) : ℕ :=
  ((adjPairs ord).map (fun q =>
    score_transition (cs.getD q.1 cdef).tags (cs.getD q.2 cdef).tags)).sum

/-! ### Arithmetic helpers on sums of binary variables -/

/-- In a natural-number sum equal to one, some term is one and every
other term vanishes. -/
theorem nat_sum_eq_one {s : Finset ℕ} {f : ℕ → ℕ} (h : s.sum f = 1) :
    ∃ a ∈ s, f a = 1 ∧ ∀ b ∈ s, b ≠ a → f b = 0 := by
  have hex : ∃ a ∈ s, f a ≠ 0 := by
    by_contra hc
    push_neg at hc
    have h0 : s.sum f = 0 := Finset.sum_eq_zero (fun a ha => hc a ha)
    omega
  obtain ⟨a, ha, hfa⟩ := hex
  have hle : f a ≤ 1 := h ▸ Finset.single_le_sum (fun i _ => Nat.zero_le _) ha
  have hfa1 : f a = 1 := by omega
  refine ⟨a, ha, hfa1, ?_⟩
  intro b hb hba
  by_contra hfb
  have hsub : ({a, b} : Finset ℕ) ⊆ s := by
    intro c hc
    rcases Finset.mem_insert.mp hc with rfl | hc
    · exact ha
    · exact (Finset.mem_singleton.mp hc) ▸ hb
  have h2 : f a + f b ≤ s.sum f := by
    calc f a + f b = ({a, b} : Finset ℕ).sum f :=
          (Finset.sum_pair (Ne.symm hba)).symm
      _ ≤ s.sum f := Finset.sum_le_sum_of_subset hsub
  omega

/-! ### Adjacent pairs of a list -/

theorem adjPairs_cons_cons {α : Type*} (a b : α) (l : List α) :
    adjPairs (a :: b :: l) = (a, b) :: adjPairs (b :: l) := rfl

theorem mem_of_adjPairs {α : Type*} {l : List α} {u v : α}
    (h : (u, v) ∈ adjPairs l) : u ∈ l ∧ v ∈ l := by
  induction l with
  | nil => simp [adjPairs] at h
  | cons a rest ih =>
    cases rest with
    | nil => simp [adjPairs] at h
    | cons b r2 =>
      rw [adjPairs_cons_cons] at h
      rcases List.mem_cons.mp h with heq | h2
      · obtain ⟨rfl, rfl⟩ := Prod.mk.injEq u v a b ▸ heq
        exact ⟨List.mem_cons_self .., List.mem_cons_of_mem _ (List.mem_cons_self ..)⟩
      · obtain ⟨hu, hv⟩ := ih h2
        exact ⟨List.mem_cons_of_mem _ hu, List.mem_cons_of_mem _ hv⟩

theorem adjPairs_map {α β : Type*} (f : α → β) (l : List α) :
    adjPairs (l.map f) = (adjPairs l).map (Prod.map f f) := by
  induction l with
  | nil => rfl
  | cons a rest ih =>
    cases rest with
    | nil => rfl
    | cons b r2 =>
      have h1 : (a :: b :: r2).map f = f a :: f b :: r2.map f := rfl
      rw [h1, adjPairs_cons_cons, adjPairs_cons_cons, List.map_cons]
      have h2 : f b :: r2.map f = (b :: r2).map f := rfl
      rw [h2, ih]
      rfl

theorem adjPairs_append_single {α : Type*} {l : List α} {t u v : α} :
    (u, v) ∈ adjPairs (l ++ [t]) ↔
      (u, v) ∈ adjPairs l ∨ (l.getLast? = some u ∧ v = t) := by
  induction l with
  | nil => simp [adjPairs]
  | cons a rest ih =>
    cases rest with
    | nil =>
      simp [adjPairs]
      exact fun _ => eq_comm
    | cons b r2 =>
      have h1 : (a :: b :: r2) ++ [t] = a :: b :: (r2 ++ [t]) := rfl
      rw [h1, adjPairs_cons_cons, adjPairs_cons_cons, List.getLast?_cons_cons]
      have h2 : b :: (r2 ++ [t]) = (b :: r2) ++ [t] := rfl
      rw [List.mem_cons, h2, ih, List.mem_cons, or_assoc]

theorem ne_of_adjPairs_nodup {α : Type*} {l : List α} (hn : l.Nodup)
    {u v : α} (h : (u, v) ∈ adjPairs l) : u ≠ v := by
  induction l with
  | nil => simp [adjPairs] at h
  | cons a rest ih =>
    cases rest with
    | nil => simp [adjPairs] at h
    | cons b r2 =>
      rw [adjPairs_cons_cons] at h
      obtain ⟨hna, hnr⟩ := List.nodup_cons.mp hn
      rcases List.mem_cons.mp h with heq | h2
      · obtain ⟨rfl, rfl⟩ := Prod.mk.injEq u v a b ▸ heq
        intro huv
        exact hna (huv ▸ List.mem_cons_self ..)
      · exact ih hnr h2

theorem adjPairs_nodup {α : Type*} {l : List α} (hn : l.Nodup) :
    (adjPairs l).Nodup := by
  induction l with
  | nil => simp [adjPairs]
  | cons a rest ih =>
    cases rest with
    | nil => simp [adjPairs]
    | cons b r2 =>
      rw [adjPairs_cons_cons]
      obtain ⟨hna, hnr⟩ := List.nodup_cons.mp hn
      refine List.nodup_cons.mpr ⟨?_, ih hnr⟩
      intro hmem
      exact hna (mem_of_adjPairs hmem).1

/-! ### Pairs from itertools.combinations -/

theorem mem_combinations2 {α : Type*} {l : List α} {u v : α}
    (h : (u, v) ∈ combinations2 l) : u ∈ l ∧ v ∈ l := by
  induction l with
  | nil => simp [combinations2] at h
  | cons a rest ih =>
    rw [combinations2, List.mem_append] at h
    rcases h with h1 | h2
    · obtain ⟨b, hb, heq⟩ := List.mem_map.mp h1
      obtain ⟨rfl, rfl⟩ := Prod.mk.injEq u v a b ▸ heq.symm
      exact ⟨List.mem_cons_self .., List.mem_cons_of_mem _ hb⟩
    · obtain ⟨hu, hv⟩ := ih h2
      exact ⟨List.mem_cons_of_mem _ hu, List.mem_cons_of_mem _ hv⟩

theorem mem_combinations2_sorted {l : List ℕ} (hs : l.Sorted (· < ·))
    {u v : ℕ} : (u, v) ∈ combinations2 l ↔ u ∈ l ∧ v ∈ l ∧ u < v := by
  induction l with
  | nil => simp [combinations2]
  | cons a rest ih =>
    have hlt : ∀ b ∈ rest, a < b := List.rel_of_sorted_cons hs
    have hrest : rest.Sorted (· < ·) := List.Sorted.of_cons hs
    rw [combinations2, List.mem_append]
    constructor
    · rintro (h1 | h2)
      · obtain ⟨b, hb, heq⟩ := List.mem_map.mp h1
        obtain ⟨rfl, rfl⟩ := Prod.mk.injEq u v a b ▸ heq.symm
        exact ⟨List.mem_cons_self .., List.mem_cons_of_mem _ hb, hlt _ hb⟩
      · obtain ⟨hu, hv, huv⟩ := (ih hrest).mp h2
        exact ⟨List.mem_cons_of_mem _ hu, List.mem_cons_of_mem _ hv, huv⟩
    · rintro ⟨hu, hv, huv⟩
      rcases List.mem_cons.mp hu with rfl | hu2
      · rcases List.mem_cons.mp hv with rfl | hv2
        · omega
        · exact Or.inl (List.mem_map.mpr ⟨v, hv2, rfl⟩)
      · rcases List.mem_cons.mp hv with rfl | hv2
        · exact absurd (hlt u hu2) (by omega)
        · exact Or.inr ((ih hrest).mpr ⟨hu2, hv2, huv⟩)

theorem combinations2_nodup {l : List ℕ} (hs : l.Sorted (· < ·)) :
    (combinations2 l).Nodup := by
  induction l with
  | nil => simp [combinations2]
  | cons a rest ih =>
    have hlt : ∀ b ∈ rest, a < b := List.rel_of_sorted_cons hs
    have hrest : rest.Sorted (· < ·) := List.Sorted.of_cons hs
    rw [combinations2]
    refine List.Nodup.append ?_ (ih hrest) ?_
    · refine List.Nodup.map ?_ hrest.nodup
      intro b c hbc
      exact (Prod.mk.injEq a b a c ▸ hbc).2
    · intro q hq hq2
      obtain ⟨b, _, heq⟩ := List.mem_map.mp hq
      have ha : q.1 = a := by rw [← heq]
      have hmem := (mem_combinations2 (u := q.1) (v := q.2) (by simpa using hq2)).1
      rw [ha] at hmem
      exact absurd (hlt a hmem) (by omega)

/-! ### The extraction scan and walk -/

theorem scanNext_eq_none {x : ℕ → ℕ → ℕ} {c : ℕ} {l : List ℕ}
    (h : ∀ j ∈ l, ¬(c ≠ j ∧ x c j = 1)) : scanNext x c l = none := by
  induction l with
  | nil => rfl
  | cons j rest ih =>
    rw [scanNext, if_neg (h j (List.mem_cons_self ..))]
    exact ih (fun k hk => h k (List.mem_cons_of_mem _ hk))

theorem scanNext_append_none {x : ℕ → ℕ → ℕ} {c : ℕ} {l₁ : List ℕ}
    (l₂ : List ℕ) (h : scanNext x c l₁ = none) :
    scanNext x c (l₁ ++ l₂) = scanNext x c l₂ := by
  induction l₁ with
  | nil => rfl
  | cons j rest ih =>
    rw [scanNext] at h
    by_cases hc : c ≠ j ∧ x c j = 1
    · rw [if_pos hc] at h; exact absurd h (by simp)
    · rw [if_neg hc] at h
      rw [List.cons_append, scanNext, if_neg hc]
      exact ih h

theorem scanNext_append_some {x : ℕ → ℕ → ℕ} {c v : ℕ} {l₁ : List ℕ}
    (l₂ : List ℕ) (h : scanNext x c l₁ = some v) :
    scanNext x c (l₁ ++ l₂) = some v := by
  induction l₁ with
  | nil => exact absurd h (by simp [scanNext])
  | cons j rest ih =>
    rw [scanNext] at h
    by_cases hc : c ≠ j ∧ x c j = 1
    · rw [if_pos hc] at h
      rw [List.cons_append, scanNext, if_pos hc]
      exact h
    · rw [if_neg hc] at h
      rw [List.cons_append, scanNext, if_neg hc]
      exact ih h

theorem scanNext_mem {x : ℕ → ℕ → ℕ} {c v : ℕ} {l : List ℕ}
    (h : scanNext x c l = some v) : v ∈ l ∧ c ≠ v ∧ x c v = 1 := by
  induction l with
  | nil => exact absurd h (by simp [scanNext])
  | cons j rest ih =>
    rw [scanNext] at h
    by_cases hc : c ≠ j ∧ x c j = 1
    · rw [if_pos hc] at h
      obtain rfl : j = v := by simpa using h
      exact ⟨List.mem_cons_self .., hc⟩
    · rw [if_neg hc] at h
      obtain ⟨hm, hrest⟩ := ih h
      exact ⟨List.mem_cons_of_mem _ hm, hrest⟩

theorem findNext_eq_some {x : ℕ → ℕ → ℕ} {n c v : ℕ} (hv : v < n + 2)
    (hP : c ≠ v ∧ x c v = 1) (hmin : ∀ j < v, ¬(c ≠ j ∧ x c j = 1)) :
    findNext x n c = some v := by
  have key : ∀ m, v < m → scanNext x c (List.range m) = some v := by
    intro m
    induction m with
    | zero => omega
    | succ m' ih =>
      intro hvm
      rw [List.range_succ]
      by_cases hvm' : v < m'
      · exact scanNext_append_some _ (ih hvm')
      · have hvv : v = m' := by omega
        have hnone : scanNext x c (List.range m') = none := by
          refine scanNext_eq_none ?_
          intro j hj
          exact hmin j (by rw [hvv]; exact List.mem_range.mp hj)
        have hP' : c ≠ m' ∧ x c m' = 1 := by rw [← hvv]; exact hP
        rw [scanNext_append_none _ hnone, hvv, scanNext, if_pos hP']
  exact key (n+2) hv

theorem findNext_eq_none {x : ℕ → ℕ → ℕ} {n c : ℕ}
    (h : ∀ j < n + 2, ¬(c ≠ j ∧ x c j = 1)) : findNext x n c = none :=
  scanNext_eq_none (fun j hj => h j (List.mem_range.mp hj))

theorem walk_mem {x : ℕ → ℕ → ℕ} {n : ℕ} :
    ∀ {fuel u v : ℕ}, v ∈ walk x n fuel u → v < n + 2 := by
  intro fuel
  induction fuel with
  | zero => intro u v h; simp [walk] at h
  | succ f ih =>
    intro u v h
    rw [walk] at h
    by_cases hu : u = n + 1
    · rw [if_pos hu] at h; simp at h
    · rw [if_neg hu] at h
      cases hfind : findNext x n u with
      | none => rw [hfind] at h; simp at h
      | some j =>
        rw [hfind] at h
        rcases List.mem_cons.mp h with rfl | h2
        · exact List.mem_range.mp (scanNext_mem hfind).1
        · exact ih h2

theorem walk_succ (x : ℕ → ℕ → ℕ) (n fuel u : ℕ) :
    walk x n (fuel + 1) u =
      if u = n + 1 then []
      else match findNext x n u with
        | some j => j :: walk x n fuel j
        | none => [] := rfl

theorem walk_stable {x : ℕ → ℕ → ℕ} {n : ℕ} :
    ∀ {fuel u : ℕ}, (walk x n fuel u).length < fuel →
      ∀ {g : ℕ}, fuel ≤ g → walk x n g u = walk x n fuel u := by
  intro fuel
  induction fuel with
  | zero => intro u h; omega
  | succ f ih =>
    intro u h g hg
    obtain ⟨g', rfl⟩ : ∃ g', g = g' + 1 := ⟨g - 1, by omega⟩
    rw [walk_succ x n f] at h
    rw [walk_succ x n g', walk_succ x n f]
    by_cases hu : u = n + 1
    · rw [if_pos hu, if_pos hu]
    · rw [if_neg hu] at h
      rw [if_neg hu, if_neg hu]
      cases hfind : findNext x n u with
      | none => rfl
      | some j =>
        rw [hfind] at h
        show j :: walk x n g' j = j :: walk x n f j
        have h2 : (j :: walk x n f j).length < f + 1 := h
        have hlen : (walk x n f j).length < f := by
          simp at h2; omega
        rw [ih hlen (by omega)]

/-- The walk specification relation: from node u, the loop appends
exactly the given list and stops. -/
def follows (x : ℕ → ℕ → ℕ) (n : ℕ) : ℕ → List ℕ → Prop
  | u, [] => u = n + 1
  | u, v :: rest => u ≠ n + 1 ∧ findNext x n u = some v ∧ follows x n v rest

theorem walk_of_follows {x : ℕ → ℕ → ℕ} {n : ℕ} :
    ∀ {l : List ℕ} {u : ℕ}, follows x n u l →
      ∀ {fuel : ℕ}, l.length ≤ fuel → walk x n fuel u = l := by
  intro l
  induction l with
  | nil =>
    intro u h fuel _
    have hu : u = n + 1 := h
    cases fuel with
    | zero => rfl
    | succ f => rw [walk, if_pos hu]
  | cons v rest ih =>
    intro u h fuel hlen
    obtain ⟨hu, hfind, hrest⟩ := h
    obtain ⟨f, rfl⟩ : ∃ f, fuel = f + 1 := ⟨fuel - 1, by simp at hlen; omega⟩
    rw [walk_succ, if_neg hu, hfind]
    show v :: walk x n f v = v :: rest
    rw [ih hrest (by simp at hlen; omega)]

/-! ### The single-path decomposition lemma

An arc relation that leaves each node of `{s} ∪ A` exactly once, enters
each node of `A ∪ {t}` exactly once, stays inside those node sets, and
strictly increases some weight along arcs inside `A`, is exactly the
arc set of one simple path from `s` to `t` visiting all of `A`. -/

theorem exists_path_pair {r : ℕ → ℕ → Prop} {s t : ℕ} (hst : s ≠ t)
    (hr : r s t) (hrange : ∀ a b, r a b → a = s ∧ b = t) :
    ∃ p : List ℕ, p.head? = some s ∧ p.getLast? = some t ∧ p.Nodup ∧
      (∀ u v, r u v ↔ (u, v) ∈ adjPairs p) ∧
      (∀ u, u ∈ p ↔ u = s ∨ u = t ∨ u ∈ (∅ : Finset ℕ)) := by
  refine ⟨[s, t], rfl, rfl, by simp [hst], ?_, by simp⟩
  intro u v
  constructor
  · intro h
    obtain ⟨rfl, rfl⟩ := hrange u v h
    simp [adjPairs]
  · intro h
    have heq : (u, v) = (s, t) := by simpa [adjPairs] using h
    injection heq with h1 h2
    subst h1; subst h2
    exact hr

theorem exists_path {w : ℕ → ℤ} {t : ℕ} :
    ∀ (k : ℕ) (r : ℕ → ℕ → Prop) (A : Finset ℕ) (s : ℕ), A.card ≤ k →
    s ∉ A → t ∉ A → s ≠ t →
    (∀ a b, r a b → a ∈ insert s A ∧ b ∈ insert t A) →
    (∀ a ∈ insert s A, ∃ b, r a b) →
    (∀ a b c, r a b → r a c → b = c) →
    (∀ b ∈ insert t A, ∃ a, r a b) →
    (∀ a b c, r a c → r b c → a = b) →
    (∀ a b, r a b → a ∈ A → b ∈ A → w a < w b) →
    ∃ p : List ℕ, p.head? = some s ∧ p.getLast? = some t ∧ p.Nodup ∧
      (∀ u v, r u v ↔ (u, v) ∈ adjPairs p) ∧
      (∀ u, u ∈ p ↔ u = s ∨ u = t ∨ u ∈ A) := by
  intro k
  induction k with
  | zero =>
    intro r A s hcard hsA htA hst hrange houtex houtu hinex hinu hmono
    have hA : A = ∅ := Finset.card_eq_zero.mp (Nat.le_zero.mp hcard)
    subst hA
    obtain ⟨b, hb⟩ := houtex s (Finset.mem_insert_self s ∅)
    have hbt : b = t := by simpa using (hrange s b hb).2
    subst hbt
    refine exists_path_pair hst hb ?_
    intro a c h
    exact ⟨by simpa using (hrange a c h).1, by simpa using (hrange a c h).2⟩
  | succ k ih =>
    intro r A s hcard hsA htA hst hrange houtex houtu hinex hinu hmono
    obtain ⟨b, hb⟩ := houtex s (Finset.mem_insert_self s A)
    by_cases hbt : b = t
    · subst hbt
      have hA : A = ∅ := by
        rcases A.eq_empty_or_nonempty with h | hne
        · exact h
        · exfalso
          obtain ⟨a0, ha0, hmax⟩ := Finset.exists_max_image A w hne
          obtain ⟨c, hc⟩ := houtex a0 (Finset.mem_insert_of_mem ha0)
          have hcA : c ∈ insert b A := (hrange a0 c hc).2
          rcases Finset.mem_insert.mp hcA with rfl | hcA2
          · have has : a0 = s := hinu a0 s c hc hb
            exact hsA (has ▸ ha0)
          · have hlt := hmono a0 c hc ha0 hcA2
            have hle := hmax c hcA2
            omega
      subst hA
      refine exists_path_pair hst hb ?_
      intro a c h
      exact ⟨by simpa using (hrange a c h).1, by simpa using (hrange a c h).2⟩
    · have hbA : b ∈ A := by
        rcases Finset.mem_insert.mp (hrange s b hb).2 with h | h
        · exact absurd h hbt
        · exact h
      have hbA' : b ∉ A.erase b := Finset.not_mem_erase b A
      have htA' : t ∉ A.erase b := fun h => htA (Finset.mem_of_mem_erase h)
      have hins : insert b (A.erase b) = A := Finset.insert_erase hbA
      have hcard' : (A.erase b).card ≤ k := by
        rw [Finset.card_erase_of_mem hbA]; omega
      have hrange' : ∀ a c, r a c ∧ a ≠ s →
          a ∈ insert b (A.erase b) ∧ c ∈ insert t (A.erase b) := by
        rintro a c ⟨h, has⟩
        constructor
        · rcases Finset.mem_insert.mp (hrange a c h).1 with rfl | hA2
          · exact absurd rfl has
          · rw [hins]; exact hA2
        · rcases Finset.mem_insert.mp (hrange a c h).2 with rfl | hA2
          · exact Finset.mem_insert_self ..
          · have hcb : c ≠ b := by
              intro hcb; subst hcb
              exact has (hinu a s c h hb)
            exact Finset.mem_insert_of_mem (Finset.mem_erase.mpr ⟨hcb, hA2⟩)
      have houtex' : ∀ a ∈ insert b (A.erase b), ∃ c, r a c ∧ a ≠ s := by
        intro a ha
        have haA : a ∈ A := by rw [← hins]; exact ha
        obtain ⟨c, hc⟩ := houtex a (Finset.mem_insert_of_mem haA)
        exact ⟨c, hc, fun h => hsA (h ▸ haA)⟩
      have houtu' : ∀ a c d, r a c ∧ a ≠ s → r a d ∧ a ≠ s → c = d :=
        fun a c d h1 h2 => houtu a c d h1.1 h2.1
      have hinex' : ∀ c ∈ insert t (A.erase b), ∃ a, r a c ∧ a ≠ s := by
        intro c hc
        have hcA : c ∈ insert t A := by
          rcases Finset.mem_insert.mp hc with rfl | h
          · exact Finset.mem_insert_self ..
          · exact Finset.mem_insert_of_mem (Finset.mem_of_mem_erase h)
        obtain ⟨a, ha⟩ := hinex c hcA
        refine ⟨a, ha, ?_⟩
        intro has; subst has
        have hcb : c = b := houtu a c b ha hb
        subst hcb
        rcases Finset.mem_insert.mp hc with h | h
        · exact hbt h
        · exact hbA' h
      have hinu' : ∀ a a2 c, r a c ∧ a ≠ s → r a2 c ∧ a2 ≠ s → a = a2 :=
        fun a a2 c h1 h2 => hinu a a2 c h1.1 h2.1
      have hmono' : ∀ a c, r a c ∧ a ≠ s →
          a ∈ A.erase b → c ∈ A.erase b → w a < w c :=
        fun a c h ha hc =>
          hmono a c h.1 (Finset.mem_of_mem_erase ha) (Finset.mem_of_mem_erase hc)
      obtain ⟨p', hh, hl, hnd, harcs, hmem⟩ :=
        ih (fun u v => r u v ∧ u ≠ s) (A.erase b) b hcard' hbA' htA' hbt
          hrange' houtex' houtu' hinex' hinu' hmono'
      obtain ⟨rest, rfl⟩ : ∃ rest, p' = b :: rest := by
        cases p' with
        | nil => exact absurd hh (by simp)
        | cons a1 rest =>
          have ha1 : a1 = b := by simpa using hh
          exact ⟨rest, by rw [ha1]⟩
      refine ⟨s :: b :: rest, rfl, ?_, ?_, ?_, ?_⟩
      · rw [List.getLast?_cons_cons]
        exact hl
      · refine List.nodup_cons.mpr ⟨?_, hnd⟩
        intro hs
        rcases (hmem s).mp hs with h | h | h
        · exact hsA (h ▸ hbA)
        · exact hst h
        · exact hsA (Finset.mem_of_mem_erase h)
      · intro u v
        rw [adjPairs_cons_cons, List.mem_cons]
        constructor
        · intro h
          by_cases hus : u = s
          · subst hus
            have hvb : v = b := houtu u v b h hb
            left; rw [hvb]
          · right; exact (harcs u v).mp ⟨h, hus⟩
        · rintro (heq | h2)
          · injection heq with h1 h2
            subst h1; subst h2
            exact hb
          · exact ((harcs u v).mpr h2).1
      · intro u
        rw [List.mem_cons, hmem u]
        constructor
        · rintro (rfl | rfl | rfl | h)
          · exact Or.inl rfl
          · exact Or.inr (Or.inr hbA)
          · exact Or.inr (Or.inl rfl)
          · exact Or.inr (Or.inr (Finset.mem_of_mem_erase h))
        · rintro (rfl | rfl | h)
          · exact Or.inl rfl
          · exact Or.inr (Or.inr (Or.inl rfl))
          · rw [← hins] at h
            rcases Finset.mem_insert.mp h with rfl | h
            · exact Or.inr (Or.inl rfl)
            · exact Or.inr (Or.inr (Or.inr h))

/-! ### Pointwise consequences of the routing constraints -/

theorem x_into_start {n : ℕ} {z : ℕ → ℕ} {x : ℕ → ℕ → ℕ} {pos : ℕ → ℤ}
    (hr : routing_ok n z x pos) :
    ∀ i, i ≤ n + 1 → i ≠ 0 → x i 0 = 0 := by
  obtain ⟨-, -, -, -, -, -, hprec, -, -⟩ := hr
  intro i hi hi0
  exact Finset.sum_eq_zero_iff.mp hprec i
    (Finset.mem_filter.mpr ⟨Finset.mem_range.mpr (by omega), hi0⟩)

theorem x_out_end {n : ℕ} {z : ℕ → ℕ} {x : ℕ → ℕ → ℕ} {pos : ℕ → ℤ}
    (hr : routing_ok n z x pos) :
    ∀ j, j ≤ n + 1 → j ≠ n + 1 → x (n+1) j = 0 := by
  obtain ⟨-, -, -, -, -, -, -, hsucc, -⟩ := hr
  intro j hj hjn
  exact Finset.sum_eq_zero_iff.mp hsucc j
    (Finset.mem_filter.mpr ⟨Finset.mem_range.mpr (by omega), hjn⟩)

theorem x_out_unsel {n : ℕ} {z : ℕ → ℕ} {x : ℕ → ℕ → ℕ} {pos : ℕ → ℤ}
    (hr : routing_ok n z x pos) {i : ℕ} (hi : 1 ≤ i) (hi2 : i ≤ n)
    (hz : z (i-1) = 0) : ∀ j, j ≤ n + 1 → j ≠ i → x i j = 0 := by
  obtain ⟨-, -, -, -, -, hout, -, -, -⟩ := hr
  intro j hj hji
  have hsum := hout i (Finset.mem_Icc.mpr ⟨hi, hi2⟩)
  rw [hz] at hsum
  exact Finset.sum_eq_zero_iff.mp hsum j
    (Finset.mem_filter.mpr ⟨Finset.mem_range.mpr (by omega), hji⟩)

theorem x_in_unsel {n : ℕ} {z : ℕ → ℕ} {x : ℕ → ℕ → ℕ} {pos : ℕ → ℤ}
    (hr : routing_ok n z x pos) {i : ℕ} (hi : 1 ≤ i) (hi2 : i ≤ n)
    (hz : z (i-1) = 0) : ∀ j, j ≤ n + 1 → j ≠ i → x j i = 0 := by
  obtain ⟨-, -, -, -, hin, -, -, -, -⟩ := hr
  intro j hj hji
  have hsum := hin i (Finset.mem_Icc.mpr ⟨hi, hi2⟩)
  rw [hz] at hsum
  exact Finset.sum_eq_zero_iff.mp hsum j
    (Finset.mem_filter.mpr ⟨Finset.mem_range.mpr (by omega), hji⟩)

theorem x_out_sel {n : ℕ} {z : ℕ → ℕ} {x : ℕ → ℕ → ℕ} {pos : ℕ → ℤ}
    (hr : routing_ok n z x pos) {i : ℕ} (hi : 1 ≤ i) (hi2 : i ≤ n)
    (hz : z (i-1) = 1) :
    ∃ j, j ≤ n + 1 ∧ j ≠ i ∧ x i j = 1 ∧
      ∀ j2, j2 ≤ n + 1 → j2 ≠ i → j2 ≠ j → x i j2 = 0 := by
  obtain ⟨-, -, -, -, -, hout, -, -, -⟩ := hr
  have hsum := hout i (Finset.mem_Icc.mpr ⟨hi, hi2⟩)
  rw [hz] at hsum
  obtain ⟨j, hjmem, hj1, hother⟩ := nat_sum_eq_one hsum
  obtain ⟨hjr, hji⟩ := Finset.mem_filter.mp hjmem
  refine ⟨j, by have := Finset.mem_range.mp hjr; omega, hji, hj1, ?_⟩
  intro j2 h2 h2i h2j
  exact hother j2
    (Finset.mem_filter.mpr ⟨Finset.mem_range.mpr (by omega), h2i⟩) h2j

theorem x_in_sel {n : ℕ} {z : ℕ → ℕ} {x : ℕ → ℕ → ℕ} {pos : ℕ → ℤ}
    (hr : routing_ok n z x pos) {i : ℕ} (hi : 1 ≤ i) (hi2 : i ≤ n)
    (hz : z (i-1) = 1) :
    ∃ j, j ≤ n + 1 ∧ j ≠ i ∧ x j i = 1 ∧
      ∀ j2, j2 ≤ n + 1 → j2 ≠ i → j2 ≠ j → x j2 i = 0 := by
  obtain ⟨-, -, -, -, hin, -, -, -, -⟩ := hr
  have hsum := hin i (Finset.mem_Icc.mpr ⟨hi, hi2⟩)
  rw [hz] at hsum
  obtain ⟨j, hjmem, hj1, hother⟩ := nat_sum_eq_one hsum
  obtain ⟨hjr, hji⟩ := Finset.mem_filter.mp hjmem
  refine ⟨j, by have := Finset.mem_range.mp hjr; omega, hji, hj1, ?_⟩
  intro j2 h2 h2i h2j
  exact hother j2
    (Finset.mem_filter.mpr ⟨Finset.mem_range.mpr (by omega), h2i⟩) h2j

theorem x_start_out {n : ℕ} {z : ℕ → ℕ} {x : ℕ → ℕ → ℕ} {pos : ℕ → ℤ}
    (hr : routing_ok n z x pos) :
    ∃ j, 1 ≤ j ∧ j ≤ n ∧ x 0 j = 1 ∧
      ∀ j2, 1 ≤ j2 → j2 ≤ n → j2 ≠ j → x 0 j2 = 0 := by
  obtain ⟨-, -, hstart, -, -, -, -, -, -⟩ := hr
  obtain ⟨j, hjmem, hj1, hother⟩ := nat_sum_eq_one hstart
  obtain ⟨hj1', hj2'⟩ := Finset.mem_Icc.mp hjmem
  refine ⟨j, hj1', hj2', hj1, ?_⟩
  intro j2 h1 h2 hj
  exact hother j2 (Finset.mem_Icc.mpr ⟨h1, h2⟩) hj

theorem x_end_in {n : ℕ} {z : ℕ → ℕ} {x : ℕ → ℕ → ℕ} {pos : ℕ → ℤ}
    (hr : routing_ok n z x pos) :
    ∃ i, 1 ≤ i ∧ i ≤ n ∧ x i (n+1) = 1 ∧
      ∀ i2, 1 ≤ i2 → i2 ≤ n → i2 ≠ i → x i2 (n+1) = 0 := by
  obtain ⟨-, -, -, hend, -, -, -, -, -⟩ := hr
  obtain ⟨i, himem, hi1, hother⟩ := nat_sum_eq_one hend
  obtain ⟨hi1', hi2'⟩ := Finset.mem_Icc.mp himem
  refine ⟨i, hi1', hi2', hi1, ?_⟩
  intro i2 h1 h2 hi
  exact hother i2 (Finset.mem_Icc.mpr ⟨h1, h2⟩) hi

/-- A source of a value-1 arc (direct START→END arc excluded) is START
or a selected real node; its target is END or a selected real node. -/
theorem pathArc_range {n : ℕ} {z : ℕ → ℕ} {x : ℕ → ℕ → ℕ} {pos : ℕ → ℤ}
    (hr : routing_ok n z x pos) (hzb : ∀ s < n, z s ≤ 1)
    {a b : ℕ} (h : pathArc n x a b) :
    a ∈ insert 0 (selectedNodes n z) ∧
      b ∈ insert (n+1) (selectedNodes n z) := by
  obtain ⟨ha, hb, hab, hx, hne⟩ := h
  constructor
  · by_cases ha0 : a = 0
    · exact ha0 ▸ Finset.mem_insert_self ..
    · by_cases han : a = n + 1
      · exfalso
        have hbn : b ≠ n + 1 := fun hh => hab (han.trans hh.symm)
        have := x_out_end hr b hb hbn
        rw [han] at hx
        omega
      · have ha1 : 1 ≤ a := by omega
        have ha2 : a ≤ n := by omega
        have hzsel : z (a-1) = 1 := by
          have hle : z (a-1) ≤ 1 := hzb (a-1) (by omega)
          by_contra hzz
          have hz0 : z (a-1) = 0 := by omega
          have := x_out_unsel hr ha1 ha2 hz0 b hb (fun hh => hab hh.symm)
          omega
        exact Finset.mem_insert_of_mem
          (Finset.mem_filter.mpr ⟨Finset.mem_Icc.mpr ⟨ha1, ha2⟩, hzsel⟩)
  · by_cases hbn : b = n + 1
    · exact hbn ▸ Finset.mem_insert_self ..
    · by_cases hb0 : b = 0
      · exfalso
        have := x_into_start hr a ha (fun hh => hab (hh.trans hb0.symm))
        rw [hb0] at hx
        omega
      · have hb1 : 1 ≤ b := by omega
        have hb2 : b ≤ n := by omega
        have hzsel : z (b-1) = 1 := by
          have hle : z (b-1) ≤ 1 := hzb (b-1) (by omega)
          by_contra hzz
          have hz0 : z (b-1) = 0 := by omega
          have := x_in_unsel hr hb1 hb2 hz0 a ha hab
          omega
        exact Finset.mem_insert_of_mem
          (Finset.mem_filter.mpr ⟨Finset.mem_Icc.mpr ⟨hb1, hb2⟩, hzsel⟩)

theorem pathArc_out_unique {n : ℕ} {z : ℕ → ℕ} {x : ℕ → ℕ → ℕ}
    {pos : ℕ → ℤ} (hr : routing_ok n z x pos) (hzb : ∀ s < n, z s ≤ 1)
    {a b c : ℕ} (h1 : pathArc n x a b) (h2 : pathArc n x a c) : b = c := by
  have hmem := (pathArc_range hr hzb h1).1
  obtain ⟨ha1, hb1, hab1, hx1, hne1⟩ := h1
  obtain ⟨ha2, hc2, hac2, hx2, hne2⟩ := h2
  rcases Finset.mem_insert.mp hmem with rfl | haS
  · have hbn : b ≠ n + 1 := fun hh => hne1 (by rw [hh])
    have hcn : c ≠ n + 1 := fun hh => hne2 (by rw [hh])
    obtain ⟨j, hj1, hj2, hjx, hjo⟩ := x_start_out hr
    have hbj : b = j := by
      by_contra hbj
      have := hjo b (by omega) (by omega) hbj
      omega
    have hcj : c = j := by
      by_contra hcj
      have := hjo c (by omega) (by omega) hcj
      omega
    rw [hbj, hcj]
  · obtain ⟨haI, hasel⟩ := Finset.mem_filter.mp haS
    obtain ⟨hal, hau⟩ := Finset.mem_Icc.mp haI
    obtain ⟨j, hj1, hj2, hjx, hjo⟩ := x_out_sel hr hal hau hasel
    have hbj : b = j := by
      by_contra hbj
      have := hjo b hb1 (fun hh => hab1 hh.symm) hbj
      omega
    have hcj : c = j := by
      by_contra hcj
      have := hjo c hc2 (fun hh => hac2 hh.symm) hcj
      omega
    rw [hbj, hcj]

theorem pathArc_in_unique {n : ℕ} {z : ℕ → ℕ} {x : ℕ → ℕ → ℕ}
    {pos : ℕ → ℤ} (hr : routing_ok n z x pos) (hzb : ∀ s < n, z s ≤ 1)
    {a b c : ℕ} (h1 : pathArc n x a c) (h2 : pathArc n x b c) : a = b := by
  have hmem := (pathArc_range hr hzb h1).2
  obtain ⟨ha1, hc1, hac1, hx1, hne1⟩ := h1
  obtain ⟨hb2, hc2, hbc2, hx2, hne2⟩ := h2
  rcases Finset.mem_insert.mp hmem with rfl | hcS
  · have ha0 : a ≠ 0 := by
      intro hh
      exact hne1 (by rw [hh])
    have hb0 : b ≠ 0 := by
      intro hh
      exact hne2 (by rw [hh])
    obtain ⟨i, hi1, hi2, hix, hio⟩ := x_end_in hr
    have hai : a = i := by
      by_contra hai
      have := hio a (by omega) (by omega) hai
      omega
    have hbi : b = i := by
      by_contra hbi
      have := hio b (by omega) (by omega) hbi
      omega
    rw [hai, hbi]
  · obtain ⟨hcI, hcsel⟩ := Finset.mem_filter.mp hcS
    obtain ⟨hcl, hcu⟩ := Finset.mem_Icc.mp hcI
    obtain ⟨j, hj1, hj2, hjx, hjo⟩ := x_in_sel hr hcl hcu hcsel
    have haj : a = j := by
      by_contra haj
      have := hjo a ha1 hac1 haj
      omega
    have hbj : b = j := by
      by_contra hbj
      have := hjo b hb2 hbc2 hbj
      omega
    rw [haj, hbj]

/-- Under all routing constraints of the model (with binary `z`), the
value-1 arcs other than the direct START→END arc variable form a single
simple path from START (node 0) to END (node n+1) whose interior nodes
are exactly the selected real nodes. -/
theorem routing_path {n : ℕ} {z : ℕ → ℕ} {x : ℕ → ℕ → ℕ} {pos : ℕ → ℤ}
    (hr : routing_ok n z x pos) (hzb : ∀ s < n, z s ≤ 1) :
    ∃ p : List ℕ, p.head? = some 0 ∧ p.getLast? = some (n+1) ∧ p.Nodup ∧
      (∀ u v, pathArc n x u v ↔ (u, v) ∈ adjPairs p) ∧
      (∀ u, u ∈ p ↔ u = 0 ∨ u = n + 1 ∨ u ∈ selectedNodes n z) := by
  refine exists_path (w := pos) (selectedNodes n z).card (pathArc n x)
    (selectedNodes n z) 0 le_rfl ?_ ?_ (by omega)
    (fun a b hab => pathArc_range hr hzb hab) ?_
    (fun a b c h1 h2 => pathArc_out_unique hr hzb h1 h2) ?_
    (fun a b c h1 h2 => pathArc_in_unique hr hzb h1 h2) ?_
  · intro h
    obtain ⟨hI, -⟩ := Finset.mem_filter.mp h
    obtain ⟨h1, -⟩ := Finset.mem_Icc.mp hI
    omega
  · intro h
    obtain ⟨hI, -⟩ := Finset.mem_filter.mp h
    obtain ⟨-, h2⟩ := Finset.mem_Icc.mp hI
    omega
  · intro a ha
    rcases Finset.mem_insert.mp ha with rfl | haS
    · obtain ⟨j, hj1, hj2, hjx, -⟩ := x_start_out hr
      refine ⟨j, by omega, by omega, by omega, hjx, ?_⟩
      intro hpair
      injection hpair with hh1 hh2
      omega
    · obtain ⟨haI, hasel⟩ := Finset.mem_filter.mp haS
      obtain ⟨hal, hau⟩ := Finset.mem_Icc.mp haI
      obtain ⟨j, hj1, hj2, hjx, -⟩ := x_out_sel hr hal hau hasel
      refine ⟨j, by omega, hj1, fun hh => hj2 hh.symm, hjx, ?_⟩
      intro hpair
      injection hpair with hh1 hh2
      omega
  · intro b hb
    rcases Finset.mem_insert.mp hb with rfl | hbS
    · obtain ⟨i, hi1, hi2, hix, -⟩ := x_end_in hr
      refine ⟨i, by omega, by omega, by omega, hix, ?_⟩
      intro hpair
      injection hpair with hh1 hh2
      omega
    · obtain ⟨hbI, hbsel⟩ := Finset.mem_filter.mp hbS
      obtain ⟨hbl, hbu⟩ := Finset.mem_Icc.mp hbI
      obtain ⟨j, hj1, hj2, hjx, -⟩ := x_in_sel hr hbl hbu hbsel
      refine ⟨j, hj1, by omega, hj2, hjx, ?_⟩
      intro hpair
      injection hpair with hh1 hh2
      omega
  · intro a b hab haS hbS
    obtain ⟨-, -, -, -, -, -, -, -, hmtz⟩ := hr
    obtain ⟨haI, -⟩ := Finset.mem_filter.mp haS
    obtain ⟨hbI, -⟩ := Finset.mem_filter.mp hbS
    obtain ⟨-, -, hab', hx, -⟩ := hab
    have hineq := hmtz a haI b hbI hab'
    rw [hx] at hineq
    push_cast at hineq
    omega

/-! ### The extractor follows the path -/

theorem follows_nil {x : ℕ → ℕ → ℕ} {n u : ℕ} :
    follows x n u [] ↔ u = n + 1 := Iff.rfl

theorem follows_cons {x : ℕ → ℕ → ℕ} {n u v : ℕ} {rest : List ℕ} :
    follows x n u (v :: rest) ↔
      u ≠ n + 1 ∧ findNext x n u = some v ∧ follows x n v rest := Iff.rfl

/-- On a value-1 arc of the model, the ascending scan of the extractor
finds exactly the arc's target (even though the unconstrained direct
START→END variable may also hold value 1, its target n+1 scans last). -/
theorem pathArc_findNext {n : ℕ} {z : ℕ → ℕ} {x : ℕ → ℕ → ℕ}
    {pos : ℕ → ℤ} (hr : routing_ok n z x pos) (hzb : ∀ s < n, z s ≤ 1)
    {u v : ℕ} (h : pathArc n x u v) : findNext x n u = some v := by
  have hmem := (pathArc_range hr hzb h).1
  obtain ⟨hu, hv, huv, hx, hne⟩ := h
  rcases Finset.mem_insert.mp hmem with rfl | huS
  · have hvn : v ≠ n + 1 := fun hh => hne (by rw [hh])
    obtain ⟨j, hj1, hj2, hjx, hjo⟩ := x_start_out hr
    have hvj : v = j := by
      by_contra hvj
      have := hjo v (by omega) (by omega) hvj
      omega
    subst hvj
    refine findNext_eq_some (by omega) ⟨huv, hx⟩ ?_
    intro j2 hj2v
    rintro ⟨hj20, hj2x⟩
    have hj21 : 1 ≤ j2 := by omega
    have := hjo j2 hj21 (by omega) (by omega)
    omega
  · obtain ⟨huI, husel⟩ := Finset.mem_filter.mp huS
    obtain ⟨hul, huu⟩ := Finset.mem_Icc.mp huI
    obtain ⟨j, hj1, hj2, hjx, hjo⟩ := x_out_sel hr hul huu husel
    have hvj : v = j := by
      by_contra hvj
      have := hjo v hv (fun hh => huv hh.symm) hvj
      omega
    subst hvj
    refine findNext_eq_some (by omega) ⟨huv, hx⟩ ?_
    intro j2 hj2v
    rintro ⟨hj2u, hj2x⟩
    have := hjo j2 (by omega) (fun hh => hj2u hh.symm) (by omega)
    omega

/-- Any list whose adjacent pairs are all model arcs and whose last node
is END is followed exactly by the extraction loop. -/
theorem follows_of_arcs {n : ℕ} {z : ℕ → ℕ} {x : ℕ → ℕ → ℕ}
    {pos : ℕ → ℤ} (hr : routing_ok n z x pos) (hzb : ∀ s < n, z s ≤ 1) :
    ∀ (l : List ℕ) (u : ℕ),
      (∀ a b, (a, b) ∈ adjPairs (u :: l) → pathArc n x a b) →
      (u :: l).getLast? = some (n+1) → follows x n u l := by
  intro l
  induction l with
  | nil =>
    intro u _ hlast
    exact follows_nil.mpr (by simpa using hlast)
  | cons v rest ih =>
    intro u hall hlast
    have harc : pathArc n x u v := by
      refine hall u v ?_
      rw [adjPairs_cons_cons]
      exact List.mem_cons_self ..
    refine follows_cons.mpr ⟨?_, pathArc_findNext hr hzb harc, ?_⟩
    · intro hun
      obtain ⟨hu, hv, huv, hx, hne⟩ := harc
      have hvn : v ≠ n + 1 := fun hh => huv (hun.trans hh.symm)
      have := x_out_end hr v hv hvn
      rw [hun] at hx
      omega
    · refine ih v ?_ ?_
      · intro a b hab
        refine hall a b ?_
        rw [adjPairs_cons_cons]
        exact List.mem_cons_of_mem _ hab
      · rw [← hlast, List.getLast?_cons_cons]

/-! ### Re-summing scores along the extracted order -/

/-- The objective is the sum of the arc costs over any duplicate-free
list of arcs that carries exactly the value-1 real-node arcs. -/
theorem objective_eq_arcs_sum {cs : List Candidate} {x : ℕ → ℕ → ℕ}
    {E : List (ℕ × ℕ)} (hE : E.Nodup)
    (hmemE : ∀ q ∈ E, 1 ≤ q.1 ∧ q.1 ≤ cs.length ∧ 1 ≤ q.2 ∧
      q.2 ≤ cs.length ∧ q.1 ≠ q.2)
    (hx1 : ∀ i j, 1 ≤ i → i ≤ cs.length → 1 ≤ j → j ≤ cs.length → i ≠ j →
      (x i j = 1 ↔ (i, j) ∈ E))
    (hbin : ∀ i j, 1 ≤ i → i ≤ cs.length → 1 ≤ j → j ≤ cs.length →
      i ≠ j → x i j ≤ 1) :
    objective cs x = (E.map (fun q => cost cs (q.1 - 1) (q.2 - 1))).sum := by
  classical
  have hpoint : ∀ i ∈ Finset.Icc 1 cs.length, ∀ j ∈ Finset.Icc 1 cs.length,
      (if j ≠ i then cost cs (i-1) (j-1) * x i j else 0) =
        (if (i, j) ∈ E then cost cs (i-1) (j-1) else 0) := by
    intro i hi j hj
    obtain ⟨hi1, hi2⟩ := Finset.mem_Icc.mp hi
    obtain ⟨hj1, hj2⟩ := Finset.mem_Icc.mp hj
    by_cases hji : j = i
    · subst hji
      have hnot : (j, j) ∉ E := fun hmm => absurd rfl (hmemE _ hmm).2.2.2.2
      rw [if_neg (by simp), if_neg hnot]
    · have hij : i ≠ j := fun hh => hji hh.symm
      rw [if_pos hji]
      by_cases hmm : (i, j) ∈ E
      · rw [if_pos hmm, (hx1 i j hi1 hi2 hj1 hj2 hij).mpr hmm, Nat.mul_one]
      · rw [if_neg hmm]
        have hx0 : x i j = 0 := by
          have h1 := hbin i j hi1 hi2 hj1 hj2 hij
          have h2 : x i j ≠ 1 := fun hh =>
            hmm ((hx1 i j hi1 hi2 hj1 hj2 hij).mp hh)
          omega
        rw [hx0, Nat.mul_zero]
  calc objective cs x
      = (Finset.Icc 1 cs.length).sum (fun i => (Finset.Icc 1 cs.length).sum
          (fun j => if j ≠ i then cost cs (i-1) (j-1) * x i j else 0)) := by
        rw [objective]
        exact Finset.sum_congr rfl (fun i _ => Finset.sum_filter _ _)
    _ = (Finset.Icc 1 cs.length).sum (fun i => (Finset.Icc 1 cs.length).sum
          (fun j => if (i, j) ∈ E then cost cs (i-1) (j-1) else 0)) := by
        refine Finset.sum_congr rfl (fun i hi => ?_)
        exact Finset.sum_congr rfl (fun j hj => hpoint i hi j hj)
    _ = ((Finset.Icc 1 cs.length) ×ˢ (Finset.Icc 1 cs.length)).sum
          (fun q => if (q.1, q.2) ∈ E then cost cs (q.1 - 1) (q.2 - 1)
            else 0) :=
        (Finset.sum_product' (Finset.Icc 1 cs.length) (Finset.Icc 1 cs.length)
          (fun i j => if (i, j) ∈ E then cost cs (i - 1) (j - 1) else 0)).symm
    _ = (((Finset.Icc 1 cs.length) ×ˢ (Finset.Icc 1 cs.length)).filter
          (fun q => (q.1, q.2) ∈ E)).sum
          (fun q => cost cs (q.1 - 1) (q.2 - 1)) :=
        (Finset.sum_filter _ _).symm
    _ = E.toFinset.sum (fun q => cost cs (q.1 - 1) (q.2 - 1)) := by
        refine Finset.sum_congr ?_ (fun _ _ => rfl)
        ext q
        simp only [Finset.mem_filter, List.mem_toFinset, Finset.mem_product,
          Finset.mem_Icc]
        constructor
        · rintro ⟨-, hq⟩; exact hq
        · intro hq
          obtain ⟨h1, h2, h3, h4, -⟩ := hmemE q hq
          exact ⟨⟨⟨h1, h2⟩, h3, h4⟩, hq⟩
    _ = (E.map (fun q => cost cs (q.1 - 1) (q.2 - 1))).sum :=
        List.sum_toFinset _ hE

theorem total_score_map_sub_one (cs : List Candidate) (m : List ℕ) :
    total_score cs (m.map (fun v => v - 1)) =
      ((adjPairs m).map (fun q => cost cs (q.1 - 1) (q.2 - 1))).sum := by
  rw [total_score, adjPairs_map, List.map_map]
  rfl

/-- Key refinement fact: for every feasible assignment, re-summing the
transition scores over consecutive entries of the extracted order equals
the model objective. -/
theorem extraction_matches {cs : List Candidate} {verticales : List ℕ}
    {z : ℕ → ℕ} {x : ℕ → ℕ → ℕ} {pos : ℕ → ℤ}
    (h : model_feasible cs verticales z x pos) :
    total_score cs (get_solution x cs.length (cs.length + 2)) =
      objective cs x := by
  obtain ⟨hsel, hr⟩ := h
  have hzb : ∀ s < cs.length, z s ≤ 1 := hsel.1
  obtain ⟨p, hh, hl, hnd, harcs, hmem⟩ := routing_path hr hzb
  obtain ⟨l, rfl⟩ : ∃ l, p = 0 :: l := by
    cases p with
    | nil => exact absurd hh (by simp)
    | cons a l => exact ⟨l, by rw [show a = 0 by simpa using hh]⟩
  obtain ⟨v1, l2, rfl⟩ : ∃ v1 l2, l = v1 :: l2 := by
    cases l with
    | nil =>
      exfalso
      have h01 : (0 : ℕ) = cs.length + 1 := Option.some.inj hl
      omega
    | cons v1 l2 => exact ⟨v1, l2, rfl⟩
  have harc1 : pathArc cs.length x 0 v1 := by
    refine (harcs 0 v1).mpr ?_
    rw [adjPairs_cons_cons]
    exact List.mem_cons_self ..
  have hv10 : v1 ≠ 0 := Ne.symm harc1.2.2.1
  rw [List.getLast?_cons_cons] at hl
  have hfol : follows x cs.length 0 (v1 :: l2) := by
    refine follows_of_arcs hr hzb _ 0 (fun a b hab => (harcs a b).mpr hab) ?_
    rw [List.getLast?_cons_cons]
    exact hl
  have hplen : (0 :: v1 :: l2).length ≤ cs.length + 2 := by
    have hsub : (0 :: v1 :: l2).toFinset ⊆ Finset.range (cs.length + 2) := by
      intro u hu
      rw [List.mem_toFinset] at hu
      rcases (hmem u).mp hu with rfl | rfl | huS
      · exact Finset.mem_range.mpr (by omega)
      · exact Finset.mem_range.mpr (by omega)
      · obtain ⟨huI, -⟩ := Finset.mem_filter.mp huS
        obtain ⟨-, hu2⟩ := Finset.mem_Icc.mp huI
        exact Finset.mem_range.mpr (by omega)
    calc (0 :: v1 :: l2).length = (0 :: v1 :: l2).toFinset.card :=
          (List.toFinset_card_of_nodup hnd).symm
      _ ≤ (Finset.range (cs.length + 2)).card := Finset.card_le_card hsub
      _ = cs.length + 2 := by rw [Finset.card_range]
  have hwalk : walk x cs.length (cs.length + 2) 0 = v1 :: l2 :=
    walk_of_follows hfol (by simp at hplen ⊢; omega)
  have hndl : (v1 :: l2).Nodup := hnd.of_cons
  have h0nl : (0 : ℕ) ∉ v1 :: l2 := (List.nodup_cons.mp hnd).1
  have hlne : (v1 :: l2) ≠ [] := by simp
  have hgl : (v1 :: l2).getLast hlne = cs.length + 1 := by
    have hq := List.getLast?_eq_getLast (v1 :: l2) hlne
    rw [hq] at hl
    injection hl
  have hsplit : (v1 :: l2).dropLast ++ [cs.length + 1] = v1 :: l2 := by
    rw [← hgl]
    exact List.dropLast_append_getLast hlne
  have hmnd : ((v1 :: l2).dropLast).Nodup :=
    List.Nodup.sublist (List.dropLast_sublist _) hndl
  have hnotendm : (cs.length + 1) ∉ (v1 :: l2).dropLast := by
    intro hcon
    have hdis : ((v1 :: l2).dropLast).Disjoint [cs.length + 1] :=
      List.disjoint_of_nodup_append (by rw [hsplit]; exact hndl)
    exact hdis hcon (List.mem_cons_self ..)
  have hmm : ∀ u ∈ (v1 :: l2).dropLast,
      1 ≤ u ∧ u ≤ cs.length := by
    intro u hu
    have hul : u ∈ v1 :: l2 := (List.dropLast_sublist _).mem hu
    have hup : u ∈ 0 :: v1 :: l2 := List.mem_cons_of_mem _ hul
    rcases (hmem u).mp hup with rfl | rfl | huS
    · exact absurd hul h0nl
    · exact absurd hu hnotendm
    · obtain ⟨huI, -⟩ := Finset.mem_filter.mp huS
      exact Finset.mem_Icc.mp huI
  have hgs : get_solution x cs.length (cs.length + 2) =
      ((v1 :: l2).dropLast).map (fun v => v - 1) := by
    rw [get_solution, hwalk, strip_start, if_neg (by simp [hv10]),
      strip_end, if_pos hl]
  have harcmem : ∀ i j, 1 ≤ i → i ≤ cs.length → 1 ≤ j → j ≤ cs.length →
      i ≠ j → (x i j = 1 ↔ (i, j) ∈ adjPairs ((v1 :: l2).dropLast)) := by
    intro i j hi1 hi2 hj1 hj2 hij
    constructor
    · intro hx
      have harc : pathArc cs.length x i j := by
        refine ⟨by omega, by omega, hij, hx, ?_⟩
        intro hpair
        injection hpair with hh1 hh2
        omega
      have hinp := (harcs i j).mp harc
      rw [adjPairs_cons_cons] at hinp
      rcases List.mem_cons.mp hinp with heq | hin2
      · exfalso
        injection heq with hh1 hh2
        omega
      · rw [← hsplit] at hin2
        rcases adjPairs_append_single.mp hin2 with hgood | ⟨-, hbad⟩
        · exact hgood
        · omega
    · intro hin
      have hin2 : (i, j) ∈ adjPairs ((v1 :: l2).dropLast ++ [cs.length + 1]) :=
        adjPairs_append_single.mpr (Or.inl hin)
      rw [hsplit] at hin2
      have hinp : (i, j) ∈ adjPairs (0 :: v1 :: l2) := by
        rw [adjPairs_cons_cons]
        exact List.mem_cons_of_mem _ hin2
      exact ((harcs i j).mpr hinp).2.2.2.1
  rw [hgs, total_score_map_sub_one]
  refine (objective_eq_arcs_sum (adjPairs_nodup hmnd) ?_ harcmem ?_).symm
  · intro q hq
    obtain ⟨hq1, hq2⟩ := mem_of_adjPairs hq
    obtain ⟨h1, h2⟩ := hmm q.1 hq1
    obtain ⟨h3, h4⟩ := hmm q.2 hq2
    exact ⟨h1, h2, h3, h4, ne_of_adjPairs_nodup hmnd (by
      obtain ⟨a, b⟩ := q
      exact hq)⟩
  · intro i j hi1 hi2 hj1 hj2 hij
    obtain ⟨hbin, -⟩ := hr
    exact hbin i (Finset.mem_range.mpr (by omega)) j
      (Finset.mem_range.mpr (by omega)) hij

/-! ### Structure of the candidate list -/

theorem build_candidate_slides_length (images : ℕ → Photo)
    (hs vs : List ℕ) :
    (build_candidate_slides images hs vs).length =
      hs.length + (combinations2 vs).length := by
  simp [build_candidate_slides]

theorem singleCand_injective (images : ℕ → Photo) :
    Function.Injective (singleCand images) := by
  intro a b h
  simpa [singleCand] using congrArg Candidate.photos h

theorem pairCand_injective (images : ℕ → Photo) :
    Function.Injective (pairCand images) := by
  intro a b h
  have hp : [a.1, a.2] = [b.1, b.2] := by
    simpa [pairCand] using congrArg Candidate.photos h
  injection hp with h1 hrest
  injection hrest with h2 hnil
  exact Prod.ext h1 h2

theorem singleCand_ne_pairCand (images : ℕ → Photo) (i : ℕ) (q : ℕ × ℕ) :
    singleCand images i ≠ pairCand images q := by
  intro h
  have := congrArg Candidate.type h
  simp [singleCand, pairCand] at this

theorem mem_build_candidate_slides {images : ℕ → Photo} {hs vs : List ℕ}
    (hsort : vs.Sorted (· < ·)) (c : Candidate) :
    c ∈ build_candidate_slides images hs vs ↔
      (∃ i ∈ hs, c = singleCand images i) ∨
      (∃ i j, i ∈ vs ∧ j ∈ vs ∧ i < j ∧ c = pairCand images (i, j)) := by
  rw [build_candidate_slides, List.mem_append, List.mem_map, List.mem_map]
  constructor
  · rintro (⟨i, hi, rfl⟩ | ⟨q, hq, rfl⟩)
    · exact Or.inl ⟨i, hi, rfl⟩
    · obtain ⟨h1, h2, h3⟩ := (mem_combinations2_sorted hsort).mp
        (show (q.1, q.2) ∈ combinations2 vs from hq)
      exact Or.inr ⟨q.1, q.2, h1, h2, h3, rfl⟩
  · rintro (⟨i, hi, rfl⟩ | ⟨i, j, hi, hj, hij, rfl⟩)
    · exact Or.inl ⟨i, hi, rfl⟩
    · exact Or.inr ⟨(i, j),
        (mem_combinations2_sorted hsort).mpr ⟨hi, hj, hij⟩, rfl⟩

theorem count_singleCand {images : ℕ → Photo} {hs vs : List ℕ}
    (hnd : hs.Nodup) {i : ℕ} (hi : i ∈ hs) :
    (build_candidate_slides images hs vs).count (singleCand images i) = 1 := by
  rw [build_candidate_slides, List.count_append]
  have h1 : (hs.map (singleCand images)).count (singleCand images i) = 1 := by
    rw [List.count_map_of_injective _ _ (singleCand_injective images)]
    exact List.count_eq_one_of_mem hnd hi
  have h2 : (((combinations2 vs).map (pairCand images)).count
      (singleCand images i)) = 0 := by
    rw [List.count_eq_zero]
    intro hmm
    obtain ⟨q, -, hq⟩ := List.mem_map.mp hmm
    exact singleCand_ne_pairCand images i q hq.symm
  omega

theorem count_pairCand {images : ℕ → Photo} {hs vs : List ℕ}
    (hsort : vs.Sorted (· < ·)) {i j : ℕ} (hi : i ∈ vs) (hj : j ∈ vs)
    (hij : i < j) :
    (build_candidate_slides images hs vs).count (pairCand images (i, j))
      = 1 := by
  rw [build_candidate_slides, List.count_append]
  have h1 : (hs.map (singleCand images)).count (pairCand images (i, j))
      = 0 := by
    rw [List.count_eq_zero]
    intro hmm
    obtain ⟨a, -, ha⟩ := List.mem_map.mp hmm
    exact singleCand_ne_pairCand images a (i, j) ha
  have h2 : (((combinations2 vs).map (pairCand images)).count
      (pairCand images (i, j))) = 1 := by
    rw [List.count_map_of_injective _ _ (pairCand_injective images)]
    exact List.count_eq_one_of_mem (combinations2_nodup hsort)
      ((mem_combinations2_sorted hsort).mpr ⟨hi, hj, hij⟩)
  omega

/-- The candidate stored at index `s`: a single for `s < |hs|`, a pair
for the remaining indices. -/
theorem build_candidate_slides_getD (images : ℕ → Photo) (hs vs : List ℕ)
    {s : ℕ} (hsl : s < (build_candidate_slides images hs vs).length) :
    (s < hs.length ∧
      (build_candidate_slides images hs vs).getD s cdef =
        singleCand images (hs.getD s 0)) ∨
    (hs.length ≤ s ∧ ∃ q ∈ combinations2 vs,
      (build_candidate_slides images hs vs).getD s cdef =
        pairCand images q) := by
  rw [build_candidate_slides_length] at hsl
  by_cases hcase : s < hs.length
  · left
    refine ⟨hcase, ?_⟩
    rw [build_candidate_slides,
      List.getD_append _ _ _ s (by simpa using hcase)]
    have hslm : s < (hs.map (singleCand images)).length := by simpa using hcase
    rw [List.getD_eq_getElem _ _ hslm, List.getElem_map,
      List.getD_eq_getElem _ _ hcase]
  · right
    have hle : hs.length ≤ s := by omega
    refine ⟨hle, ?_⟩
    have hrem : s - hs.length < (combinations2 vs).length := by omega
    refine ⟨(combinations2 vs)[s - hs.length], List.getElem_mem hrem, ?_⟩
    rw [build_candidate_slides,
      List.getD_append_right _ _ _ s (by simpa using hle)]
    have hrm : s - hs.length <
        ((combinations2 vs).map (pairCand images)).length := by
      simpa using hrem
    have hlm : s - (hs.map (singleCand images)).length = s - hs.length := by
      rw [List.length_map]
    rw [hlm, List.getD_eq_getElem _ _ hrm, List.getElem_map]

/-! ### Classification of orientations by read_file -/

/-- Photo `k + j` lands in `verticales` exactly when its line's first
token is anything other than `"H"`. -/
theorem classify_photos_vertical_mem :
    ∀ (lines : List (List String)) (k i : ℕ),
      i ∈ (classify_photos k lines).2.2 ↔
        ∃ j, ∃ hj : j < lines.length,
          i = k + j ∧ (lines[j]).headD "" ≠ "H" := by
  intro lines
  induction lines with
  | nil =>
    intro k i
    simp [classify_photos]
  | cons line rest ih =>
    intro k i
    have hstep : (classify_photos k (line :: rest)).2.2 =
        if line.headD "" = "H" then (classify_photos (k+1) rest).2.2
        else k :: (classify_photos (k+1) rest).2.2 := rfl
    by_cases hH : line.headD "" = "H"
    · rw [hstep, if_pos hH, ih (k+1) i]
      constructor
      · rintro ⟨j, hj, rfl, hne⟩
        refine ⟨j+1, by simp only [List.length_cons]; omega, by omega, ?_⟩
        simpa using hne
      · rintro ⟨j, hj, hi, hne⟩
        cases j with
        | zero => exact absurd hH (by simpa using hne)
        | succ j2 =>
          have hj2 : j2 < rest.length := by
            simp only [List.length_cons] at hj; omega
          refine ⟨j2, hj2, by omega, ?_⟩
          simpa using hne
    · rw [hstep, if_neg hH, List.mem_cons, ih (k+1) i]
      constructor
      · rintro (rfl | ⟨j, hj, rfl, hne⟩)
        · exact ⟨0, by simp only [List.length_cons]; omega, by omega,
            by simpa using hH⟩
        · refine ⟨j+1, by simp only [List.length_cons]; omega, by omega, ?_⟩
          simpa using hne
      · rintro ⟨j, hj, hi, hne⟩
        cases j with
        | zero => exact Or.inl (by omega)
        | succ j2 =>
          have hj2 : j2 < rest.length := by
            simp only [List.length_cons] at hj; omega
          exact Or.inr ⟨j2, hj2, by omega, by simpa using hne⟩

/-! ### Cycle-freedom and termination of the extraction walk -/

/-- A value-1 arc between two declared distinct nodes. -/
def arcStep (n : ℕ) (x : ℕ → ℕ → ℕ) (u v : ℕ) : Prop :=
  u < n + 2 ∧ v < n + 2 ∧ u ≠ v ∧ x u v = 1

/-- No directed cycle among the value-1 arcs reachable from START. -/
def cycleFree (n : ℕ) (x : ℕ → ℕ → ℕ) : Prop :=
  ∀ u, Relation.ReflTransGen (arcStep n x) 0 u →
    ¬ Relation.TransGen (arcStep n x) u u

theorem walk_chain {x : ℕ → ℕ → ℕ} {n : ℕ} :
    ∀ {fuel u : ℕ}, u < n + 2 →
      List.Chain (arcStep n x) u (walk x n fuel u) := by
  intro fuel
  induction fuel with
  | zero => intro u _; exact List.Chain.nil
  | succ f ih =>
    intro u hu
    rw [walk_succ]
    by_cases hun : u = n + 1
    · rw [if_pos hun]; exact List.Chain.nil
    · rw [if_neg hun]
      cases hfind : findNext x n u with
      | none => exact List.Chain.nil
      | some j =>
        obtain ⟨hjm, hne, hx1⟩ := scanNext_mem hfind
        have hj : j < n + 2 := List.mem_range.mp hjm
        exact List.Chain.cons ⟨hu, hj, hne, hx1⟩ (ih hj)

theorem chain_transGen {r : ℕ → ℕ → Prop} :
    ∀ {l : List ℕ} {a b : ℕ}, List.Chain r a l → b ∈ l →
      Relation.TransGen r a b := by
  intro l
  induction l with
  | nil => intro a b _ hb; simp at hb
  | cons c rest ih =>
    intro a b hch hb
    obtain ⟨hac, hrest⟩ := List.chain_cons.mp hch
    rcases List.mem_cons.mp hb with rfl | hb2
    · exact Relation.TransGen.single hac
    · exact Relation.TransGen.head hac (ih hrest hb2)

theorem chain_nodup_or_cycle {r : ℕ → ℕ → Prop} :
    ∀ {l : List ℕ} {a : ℕ}, List.Chain r a l →
      (a :: l).Nodup ∨
        ∃ u, Relation.ReflTransGen r a u ∧ Relation.TransGen r u u := by
  intro l
  induction l with
  | nil => intro a _; left; simp
  | cons c rest ih =>
    intro a hch
    obtain ⟨hac, hrest⟩ := List.chain_cons.mp hch
    rcases ih hrest with hnd | ⟨u, hru, hcyc⟩
    · by_cases ha : a ∈ c :: rest
      · exact Or.inr ⟨a, Relation.ReflTransGen.refl, chain_transGen hch ha⟩
      · exact Or.inl (List.nodup_cons.mpr ⟨ha, hnd⟩)
    · exact Or.inr ⟨u, Relation.ReflTransGen.head hac hru, hcyc⟩

/-! ### Concrete instances used for counterexamples and witnesses -/

/-- One landscape candidate (the model then has one real node). -/
def cs1 : List Candidate := [{ type := "H", photos := [0], tags := {"a"} }]

def z1 : ℕ → ℕ := fun _ => 1

def pos1 : ℕ → ℤ := fun _ => 1

/-- The path 0 → 1 → 2. -/
def x1 : ℕ → ℕ → ℕ := fun i j =>
  if (i = 0 ∧ j = 1) ∨ (i = 1 ∧ j = 2) then 1 else 0

/-- The path 0 → 1 → 2 plus the unconstrained direct START→END arc. -/
def x1bad : ℕ → ℕ → ℕ := fun i j =>
  if (i = 0 ∧ j = 1) ∨ (i = 1 ∧ j = 2) ∨ (i = 0 ∧ j = 2) then 1 else 0

/-- All photos landscape with one tag (for generator witnesses). -/
def imgW : ℕ → Photo := fun _ => { orientation := "H", tags := {"t"} }

/-! ### Claim theorems -/

/-- C1 (counterexample to the claim as stated): the assignment `x1bad`
satisfies every constraint added by `build_model`, yet two arcs with
value 1 leave START — the path arc into node 1 and the direct
START→END arc variable `x[0, n+1]`, which no constraint mentions.  So
the arc set does not form a single simple path when the START→END arc
variable is counted, and more than one arc leaves START. -/
theorem c1_counterexample :
    model_feasible cs1 [] z1 x1bad pos1 ∧ x1bad 0 1 = 1 ∧ x1bad 0 2 = 1 ∧
    (Finset.Icc 1 (cs1.length + 1)).sum (fun j => x1bad 0 j) = 2 := by
  refine ⟨?_, by decide, by decide, by decide⟩
  unfold model_feasible selection_ok routing_ok
  decide

/-- C1 (amended): for every assignment satisfying all constraints of
`build_model`, the value-1 arcs other than the direct START→END arc
variable (which is unconstrained) form a single simple path from START
to END visiting exactly the real nodes with `z = 1`, each exactly once,
with no other such arcs anywhere in the graph. -/
theorem c1_path_structure (cs : List Candidate) (verticales : List ℕ)
    (z : ℕ → ℕ) (x : ℕ → ℕ → ℕ) (pos : ℕ → ℤ)
    (h : model_feasible cs verticales z x pos) :
    ∃ p : List ℕ, p.head? = some 0 ∧ p.getLast? = some (cs.length + 1) ∧
      p.Nodup ∧
      (∀ u v, pathArc cs.length x u v ↔ (u, v) ∈ adjPairs p) ∧
      (∀ u, u ∈ p ↔ u = 0 ∨ u = cs.length + 1 ∨
        u ∈ selectedNodes cs.length z) :=
  routing_path h.2 h.1.1

theorem c1_path_structure_witness :
    model_feasible cs1 [] z1 x1 pos1 ∧
    (∃ p : List ℕ, p.head? = some 0 ∧ p.getLast? = some (cs1.length + 1) ∧
      p.Nodup ∧
      (∀ u v, pathArc cs1.length x1 u v ↔ (u, v) ∈ adjPairs p) ∧
      (∀ u, u ∈ p ↔ u = 0 ∨ u = cs1.length + 1 ∨
        u ∈ selectedNodes cs1.length z1)) := by
  have hfeas : model_feasible cs1 [] z1 x1 pos1 := by
    unfold model_feasible selection_ok routing_ok
    decide
  exact ⟨hfeas, c1_path_structure cs1 [] z1 x1 pos1 hfeas⟩

/-- C2: `score_transition(A, B)` is `min(|A ∩ B|, |A \ B|, |B \ A|)`, a
non-negative integer, and is 0 when either set is empty or any of the
three terms is 0. -/
theorem c2_score_transition_contract (A B : Finset String) :
    score_transition A B =
      min ((A ∩ B).card) (min ((A \ B).card) ((B \ A).card)) ∧
    0 ≤ score_transition A B ∧
    (A = ∅ → score_transition A B = 0) ∧
    (B = ∅ → score_transition A B = 0) ∧
    ((A ∩ B).card = 0 ∨ (A \ B).card = 0 ∨ (B \ A).card = 0 →
      score_transition A B = 0) := by
  refine ⟨rfl, Nat.zero_le _, ?_, ?_, ?_⟩
  · rintro rfl
    simp [score_transition]
  · rintro rfl
    simp [score_transition]
  · intro h
    show min ((A ∩ B).card) (min ((A \ B).card) ((B \ A).card)) = 0
    omega

theorem c2_score_transition_contract_witness :
    score_transition {"a", "b"} {"b", "c"} =
      min (({"a", "b"} ∩ {"b", "c"} : Finset String)).card
        (min (({"a", "b"} \ {"b", "c"} : Finset String)).card
          (({"b", "c"} \ {"a", "b"} : Finset String)).card) :=
  (c2_score_transition_contract {"a", "b"} {"b", "c"}).1

/-- C3: build_candidate_slides emits exactly one SINGLE candidate per
landscape photo (with that photo's tags) and exactly one PAIR candidate
per pair `i < j` of portrait photos (with the two ids and the union of
tags), and nothing else.  The hypotheses record what `read_file`
guarantees about its index lists: no duplicates and ascending order.
The result is a pure function of its input, hence deterministic. -/
theorem c3_candidate_generation (images : ℕ → Photo) (hs vs : List ℕ)
    (hnd : hs.Nodup) (hsort : vs.Sorted (· < ·)) :
    (∀ c, c ∈ build_candidate_slides images hs vs ↔
      ((∃ i ∈ hs, c = singleCand images i) ∨
       (∃ i j, i ∈ vs ∧ j ∈ vs ∧ i < j ∧ c = pairCand images (i, j)))) ∧
    (∀ i ∈ hs,
      (build_candidate_slides images hs vs).count (singleCand images i)
        = 1) ∧
    (∀ i j, i ∈ vs → j ∈ vs → i < j →
      (build_candidate_slides images hs vs).count (pairCand images (i, j))
        = 1) :=
  ⟨fun c => mem_build_candidate_slides hsort c,
   fun _ hi => count_singleCand hnd hi,
   fun _ _ hi hj hij => count_pairCand hsort hi hj hij⟩

theorem c3_candidate_generation_witness :
    ([0] : List ℕ).Nodup ∧ ([1, 2] : List ℕ).Sorted (· < ·) ∧
    (build_candidate_slides imgW [0] [1, 2]).count (singleCand imgW 0)
      = 1 :=
  ⟨by decide, by decide,
    (c3_candidate_generation imgW [0] [1, 2] (by decide) (by decide)).2.1
      0 (by decide)⟩

/-- C4: in the built model, `z` is fixed to 1 on every `"H"` candidate,
and for each portrait photo the selected slides containing it number at
most one; consequently each landscape photo appears in exactly one
selected slide and each portrait photo in at most one. -/
theorem c4_selection_constraints (images : ℕ → Photo) (hs vs : List ℕ)
    (z : ℕ → ℕ) (cs : List Candidate)
    (hcs : cs = build_candidate_slides images hs vs)
    (hnd : hs.Nodup) (hdisj : ∀ a ∈ hs, a ∉ vs)
    (hsel : selection_ok cs vs z) :
    (∀ s < cs.length, (cs.getD s cdef).type = "H" → z s = 1) ∧
    (∀ p ∈ vs,
      ((Finset.range cs.length).filter
        (fun s => z s = 1 ∧ p ∈ (cs.getD s cdef).photos)).card ≤ 1) ∧
    (∀ q ∈ hs,
      ((Finset.range cs.length).filter
        (fun s => z s = 1 ∧ q ∈ (cs.getD s cdef).photos)).card = 1) := by
  subst hcs
  obtain ⟨hzb, hfix, hpair⟩ := hsel
  refine ⟨hfix, ?_, ?_⟩
  · intro p hp
    have hsub : (Finset.range (build_candidate_slides images hs vs).length).filter
        (fun s => z s = 1 ∧
          p ∈ ((build_candidate_slides images hs vs).getD s cdef).photos) ⊆
        (Finset.range (build_candidate_slides images hs vs).length).filter
        (fun s => ((build_candidate_slides images hs vs).getD s cdef).type = "V" ∧
          p ∈ ((build_candidate_slides images hs vs).getD s cdef).photos) := by
      intro s hs2
      obtain ⟨hsr, hz1, hpin⟩ := Finset.mem_filter.mp hs2
      refine Finset.mem_filter.mpr ⟨hsr, ?_, hpin⟩
      rcases build_candidate_slides_getD images hs vs (Finset.mem_range.mp hsr)
        with ⟨h1, h2⟩ | ⟨h1, q2, hq2, h2⟩
      · exfalso
        rw [h2] at hpin
        have hpeq : p = hs.getD s 0 := by simpa [singleCand] using hpin
        have hpmem : p ∈ hs := by
          rw [hpeq, List.getD_eq_getElem _ _ h1]
          exact List.getElem_mem h1
        exact hdisj p hpmem hp
      · rw [h2]
        rfl
    have hcard : ((Finset.range (build_candidate_slides images hs vs).length).filter
        (fun s => z s = 1 ∧
          p ∈ ((build_candidate_slides images hs vs).getD s cdef).photos)).card =
        ((Finset.range (build_candidate_slides images hs vs).length).filter
        (fun s => z s = 1 ∧
          p ∈ ((build_candidate_slides images hs vs).getD s cdef).photos)).sum z := by
      rw [Finset.card_eq_sum_ones]
      refine Finset.sum_congr rfl ?_
      intro s hs2
      exact ((Finset.mem_filter.mp hs2).2.1).symm
    rw [hcard]
    calc ((Finset.range (build_candidate_slides images hs vs).length).filter
          (fun s => z s = 1 ∧
            p ∈ ((build_candidate_slides images hs vs).getD s cdef).photos)).sum z
        ≤ ((Finset.range (build_candidate_slides images hs vs).length).filter
          (fun s => ((build_candidate_slides images hs vs).getD s cdef).type = "V" ∧
            p ∈ ((build_candidate_slides images hs vs).getD s cdef).photos)).sum z :=
          Finset.sum_le_sum_of_subset hsub
      _ ≤ 1 := hpair p hp
  · intro q hq
    obtain ⟨k, hk, hkq⟩ := List.mem_iff_getElem.mp hq
    have hklen : k < (build_candidate_slides images hs vs).length := by
      rw [build_candidate_slides_length]
      omega
    have hgdk : (build_candidate_slides images hs vs).getD k cdef =
        singleCand images q := by
      rcases build_candidate_slides_getD images hs vs hklen
        with ⟨h1, h2⟩ | ⟨h1, -⟩
      · rw [h2, List.getD_eq_getElem _ _ hk, hkq]
      · omega
    have hset : (Finset.range (build_candidate_slides images hs vs).length).filter
        (fun s => z s = 1 ∧
          q ∈ ((build_candidate_slides images hs vs).getD s cdef).photos)
        = {k} := by
      ext s
      simp only [Finset.mem_filter, Finset.mem_range, Finset.mem_singleton]
      constructor
      · rintro ⟨hsr, hz1, hqin⟩
        rcases build_candidate_slides_getD images hs vs hsr
          with ⟨h1, h2⟩ | ⟨h1, q2, hq2, h2⟩
        · rw [h2] at hqin
          have hqeq : hs.getD s 0 = q := (List.mem_singleton.mp hqin).symm
          have hsq : hs[s] = hs[k] := by
            rw [← List.getD_eq_getElem _ _ h1, hqeq, hkq]
          exact (List.Nodup.getElem_inj_iff hnd).mp hsq
        · exfalso
          rw [h2] at hqin
          obtain ⟨hm1, hm2⟩ := mem_combinations2 (l := vs)
            (u := q2.1) (v := q2.2) (by simpa using hq2)
          have hqvs : q ∈ vs := by
            rcases (by simpa [pairCand] using hqin : q = q2.1 ∨ q = q2.2)
              with rfl | rfl
            · exact hm1
            · exact hm2
          exact hdisj q hq hqvs
      · rintro rfl
        refine ⟨hklen, ?_, ?_⟩
        · refine hfix s hklen ?_
          rw [hgdk]
          rfl
        · rw [hgdk]
          simp [singleCand]
    rw [hset, Finset.card_singleton]

theorem c4_selection_constraints_witness :
    selection_ok (build_candidate_slides imgW [0] [1, 2]) [1, 2] z1 ∧
    ((Finset.range (build_candidate_slides imgW [0] [1, 2]).length).filter
      (fun s => z1 s = 1 ∧
        0 ∈ ((build_candidate_slides imgW [0] [1, 2]).getD s cdef).photos)).card
      = 1 := by
  have hsel : selection_ok (build_candidate_slides imgW [0] [1, 2]) [1, 2] z1 := by
    unfold selection_ok
    decide
  exact ⟨hsel, (c4_selection_constraints imgW [0] [1, 2] z1 _ rfl
    (by decide) (by decide) hsel).2.2 0 (by decide)⟩

/-- C5: the objective maximized by `build_model` sums
`cost[i-1, j-1] · x[i, j]` over ordered pairs of distinct real nodes,
where `cost` is `score_transition` of the two candidates' tag sets;
equivalently, summing over all ordered pairs of distinct nodes of the
whole graph with cost 0 on every arc touching START or END gives the
same value. -/
theorem c5_objective_form (cs : List Candidate) (x : ℕ → ℕ → ℕ) :
    (∀ s t, cost cs s t =
      score_transition (cs.getD s cdef).tags (cs.getD t cdef).tags) ∧
    objective cs x =
      (Finset.range (cs.length + 2)).sum (fun i =>
        ((Finset.range (cs.length + 2)).filter (fun j => j ≠ i)).sum
          (fun j =>
            (if 1 ≤ i ∧ i ≤ cs.length ∧ 1 ≤ j ∧ j ≤ cs.length then
              cost cs (i-1) (j-1) else 0) * x i j)) := by
  refine ⟨fun s t => rfl, ?_⟩
  have hstep1 : ∀ i ∈ Finset.Icc 1 cs.length,
      ((Finset.Icc 1 cs.length).filter (fun j => j ≠ i)).sum
        (fun j => cost cs (i-1) (j-1) * x i j) =
      ((Finset.range (cs.length + 2)).filter (fun j => j ≠ i)).sum
        (fun j =>
          (if 1 ≤ i ∧ i ≤ cs.length ∧ 1 ≤ j ∧ j ≤ cs.length then
            cost cs (i-1) (j-1) else 0) * x i j) := by
    intro i hi
    obtain ⟨hi1, hi2⟩ := Finset.mem_Icc.mp hi
    have hsubj : (Finset.Icc 1 cs.length).filter (fun j => j ≠ i) ⊆
        (Finset.range (cs.length + 2)).filter (fun j => j ≠ i) := by
      intro j hj
      obtain ⟨hjI, hjne⟩ := Finset.mem_filter.mp hj
      obtain ⟨hj1, hj2⟩ := Finset.mem_Icc.mp hjI
      exact Finset.mem_filter.mpr
        ⟨Finset.mem_range.mpr (by omega), hjne⟩
    rw [← Finset.sum_subset hsubj ?_]
    · refine Finset.sum_congr rfl ?_
      intro j hj
      obtain ⟨hjI, -⟩ := Finset.mem_filter.mp hj
      obtain ⟨hj1, hj2⟩ := Finset.mem_Icc.mp hjI
      rw [if_pos ⟨hi1, hi2, hj1, hj2⟩]
    · intro j hjr hjnot
      obtain ⟨hjr2, hjne⟩ := Finset.mem_filter.mp hjr
      have hjout : ¬(1 ≤ j ∧ j ≤ cs.length) := by
        intro hh
        exact hjnot (Finset.mem_filter.mpr ⟨Finset.mem_Icc.mpr hh, hjne⟩)
      have hcond : ¬(1 ≤ i ∧ i ≤ cs.length ∧ 1 ≤ j ∧ j ≤ cs.length) := by
        intro hh
        exact hjout ⟨hh.2.2.1, hh.2.2.2⟩
      rw [if_neg hcond, Nat.zero_mul]
  have hsubi : Finset.Icc 1 cs.length ⊆ Finset.range (cs.length + 2) := by
    intro i hi
    obtain ⟨h1, h2⟩ := Finset.mem_Icc.mp hi
    exact Finset.mem_range.mpr (by omega)
  rw [objective]
  rw [Finset.sum_congr rfl hstep1]
  refine Finset.sum_subset hsubi ?_
  intro i hir hinot
  refine Finset.sum_eq_zero ?_
  intro j hj
  have hiout : ¬(1 ≤ i ∧ i ≤ cs.length) := by
    intro hh
    exact hinot (Finset.mem_Icc.mpr hh)
  have hcond : ¬(1 ≤ i ∧ i ≤ cs.length ∧ 1 ≤ j ∧ j ≤ cs.length) := by
    intro hh
    exact hiout ⟨hh.1, hh.2.1⟩
  rw [if_neg hcond, Nat.zero_mul]

theorem c5_objective_form_witness :
    objective cs1 x1 =
      (Finset.range (cs1.length + 2)).sum (fun i =>
        ((Finset.range (cs1.length + 2)).filter (fun j => j ≠ i)).sum
          (fun j =>
            (if 1 ≤ i ∧ i ≤ cs1.length ∧ 1 ≤ j ∧ j ≤ cs1.length then
              cost cs1 (i-1) (j-1) else 0) * x1 i j)) :=
  (c5_objective_form cs1 x1).2

/-- C6: for every assignment satisfying all of the built model's
constraints, re-summing `score_transition` over consecutive slides of
the order extracted by `get_solution` equals exactly the model's
objective value. -/
theorem c6_rescore_matches_objective (cs : List Candidate)
    (verticales : List ℕ) (z : ℕ → ℕ) (x : ℕ → ℕ → ℕ) (pos : ℕ → ℤ)
    (h : model_feasible cs verticales z x pos) :
    total_score cs (get_solution x cs.length (cs.length + 2)) =
      objective cs x :=
  extraction_matches h

theorem c6_rescore_matches_objective_witness :
    model_feasible cs1 [] z1 x1 pos1 ∧
    total_score cs1 (get_solution x1 cs1.length (cs1.length + 2)) =
      objective cs1 x1 := by
  have hfeas : model_feasible cs1 [] z1 x1 pos1 := by
    unfold model_feasible selection_ok routing_ok
    decide
  exact ⟨hfeas, c6_rescore_matches_objective cs1 [] z1 x1 pos1 hfeas⟩

/-- C7 (counterexample to the claim as stated): a photo line with
orientation token "X" (outside {"H", "V"}) raises nothing: `read_file`
classifies it as vertical (index appended to `verticales`), and with
zero landscape photos and a single portrait photo the builder still
produces an (empty) candidate list — no InvalidInputError exists
anywhere in the code. -/
theorem c7_counterexample :
    (classify_photos 0 [["X", "1", "a"]]).2.2 = [0] ∧
    (classify_photos 0 [["X", "1", "a"]]).2.1 = [] ∧
    build_candidate_slides
      (fun _ => { orientation := "X", tags := {"a"} }) [] [0] = [] := by
  refine ⟨by decide, by decide, rfl⟩

/-- C7 (amended): the code performs no input validation and defines no
error type: every photo whose orientation token is not "H" is
classified as vertical (portrait) and processing continues; with zero
landscape photos and zero possible portrait pairs the builder still
constructs the model, whose start-degree constraint is then
unsatisfiable (the model is infeasible rather than rejected early). -/
theorem c7_no_validation :
    (∀ (lines : List (List String)) (k i : ℕ),
      i ∈ (classify_photos k lines).2.2 ↔
        ∃ j, ∃ hj : j < lines.length,
          i = k + j ∧ (lines[j]).headD "" ≠ "H") ∧
    (∀ (images : ℕ → Photo) (v : ℕ),
      build_candidate_slides images [] [v] = []) ∧
    (¬ ∃ (z : ℕ → ℕ) (x : ℕ → ℕ → ℕ) (pos : ℕ → ℤ),
      routing_ok 0 z x pos) := by
  refine ⟨classify_photos_vertical_mem, fun images v => rfl, ?_⟩
  rintro ⟨z, x, pos, h⟩
  obtain ⟨-, -, hstart, -, -, -, -, -, -⟩ := h
  have hempty : Finset.Icc 1 0 = (∅ : Finset ℕ) :=
    Finset.Icc_eq_empty (by omega)
  rw [hempty, Finset.sum_empty] at hstart
  exact absurd hstart (by omega)

/-- C8 (counterexample to the claim as stated): with the all-zero arc
assignment there is no outgoing value-1 arc at START, yet the extractor
raises nothing — it returns the empty order normally (the `for` loop's
`else: break` silently ends the walk; no MalformedSolutionError exists
in the code). -/
theorem c8_counterexample : get_solution (fun _ _ => 0) 1 3 = [] := rfl

/-- C8 (amended): when no outgoing value-1 arc exists at the current
node (here START), the extraction loop silently breaks and
`get_solution` returns the partial (empty) order instead of failing. -/
theorem c8_silent_break (x : ℕ → ℕ → ℕ) (n fuel : ℕ)
    (h : ∀ j, j ≤ n + 1 → x 0 j ≠ 1) :
    get_solution x n fuel = [] := by
  have hnone : findNext x n 0 = none := by
    refine findNext_eq_none ?_
    intro j hj
    rintro ⟨hj0, hjx⟩
    exact h j (by omega) hjx
  have hwalk : walk x n fuel 0 = [] := by
    cases fuel with
    | zero => rfl
    | succ f =>
      rw [walk_succ]
      have h0 : (0 : ℕ) ≠ n + 1 := by omega
      rw [if_neg h0, hnone]
  rw [get_solution, hwalk]
  rfl

theorem c8_silent_break_witness :
    (∀ j, j ≤ 2 → (fun _ _ => (0 : ℕ)) 0 j ≠ 1) ∧
    get_solution (fun _ _ => 0) 1 5 = [] :=
  ⟨fun _ _ => Nat.zero_ne_one,
   c8_silent_break (fun _ _ => 0) 1 5 (fun _ _ => Nat.zero_ne_one)⟩

/-- C9: `score_transition` is symmetric, and on identical tag sets it is
0 even when the set is non-empty (the two difference terms vanish). -/
theorem c9_score_symmetry_and_diagonal (A B : Finset String) :
    score_transition A B = score_transition B A ∧
    score_transition A A = 0 := by
  constructor
  · show min ((A ∩ B).card) (min ((A \ B).card) ((B \ A).card)) =
      min ((B ∩ A).card) (min ((B \ A).card) ((A \ B).card))
    rw [Finset.inter_comm, Nat.min_comm ((A \ B).card)]
  · show min ((A ∩ A).card) (min ((A \ A).card) ((A \ A).card)) = 0
    simp

/-- C10: if the value-1 arcs reachable from START contain no directed
cycle, the extraction walk visits at most `n + 1` nodes and its result
is unchanged by any fuel of at least `n + 2` — the unbounded `while`
loop of `get_solution` terminates within `n + 2` steps. -/
theorem c10_walk_terminates (x : ℕ → ℕ → ℕ) (n : ℕ)
    (h : cycleFree n x) :
    (walk x n (n + 2) 0).length ≤ n + 1 ∧
    ∀ fuel, n + 2 ≤ fuel → walk x n fuel 0 = walk x n (n + 2) 0 := by
  have hch : List.Chain (arcStep n x) 0 (walk x n (n+2) 0) :=
    walk_chain (by omega)
  have hnd : (0 :: walk x n (n+2) 0).Nodup := by
    rcases chain_nodup_or_cycle hch with hn | ⟨u, hru, hcyc⟩
    · exact hn
    · exact absurd hcyc (h u hru)
  have hsub : (0 :: walk x n (n+2) 0).toFinset ⊆ Finset.range (n+2) := by
    intro u hu
    rw [List.mem_toFinset] at hu
    rcases List.mem_cons.mp hu with rfl | hu2
    · exact Finset.mem_range.mpr (by omega)
    · exact Finset.mem_range.mpr (walk_mem hu2)
  have hlen : (0 :: walk x n (n+2) 0).length ≤ n + 2 := by
    calc (0 :: walk x n (n+2) 0).length
        = (0 :: walk x n (n+2) 0).toFinset.card :=
          (List.toFinset_card_of_nodup hnd).symm
      _ ≤ (Finset.range (n+2)).card := Finset.card_le_card hsub
      _ = n + 2 := Finset.card_range _
  have hlen2 : (walk x n (n+2) 0).length ≤ n + 1 := by
    simp only [List.length_cons] at hlen
    omega
  exact ⟨hlen2, fun fuel hf => walk_stable (by omega) hf⟩

theorem c10_walk_terminates_witness :
    cycleFree 0 (fun _ _ => 0) ∧
    ((walk (fun _ _ => 0) 0 2 0).length ≤ 1 ∧
      ∀ fuel, 2 ≤ fuel → walk (fun _ _ => 0) 0 fuel 0 =
        walk (fun _ _ => 0) 0 2 0) := by
  have hcf : cycleFree 0 (fun _ _ => 0) := by
    intro u hru hcyc
    cases hcyc with
    | single h1 => exact absurd h1.2.2.2 (by simp)
    | tail h1 h2 => exact absurd h2.2.2.2 (by simp)
  exact ⟨hcf, c10_walk_terminates (fun _ _ => 0) 0 hcf⟩

end Slideshow
